import Mathlib

/-!
Verification of the note-publishing pipeline in scripts/publish.py.

The script is a single-pass reconciler: it parses exported pseudo-markdown
notes, decides which are eligible for publication, assigns slugs, rewrites
local links to bundled attachments, and writes one bundle directory per
post into the content tree.

Shallow-embedding conventions used throughout this file:
  - Text is modelled as `Str := List Char`. Python string operations
    (strip, lower, split, startswith, splitlines, join) are defined on
    these lists, restricted to ASCII and to the newline character 0x0a:
    the script only ever feeds them ASCII markers and markdown text.
    The NFKD normalisation step of `slugify` is the identity on ASCII and
    the subsequent ascii-ignore encoding drops every non-ASCII character,
    which is what `slugify` below does directly.
  - Timestamps (datetime values in the script) are modelled as `Nat`
    (seconds). `format_dt` (isoformat at second precision) is modelled as
    the decimal digit string of the number: like isoformat it is an
    injective, order-preserving textual encoding that `parse_dt` inverts.
  - The filesystem under the content directory is an association list
    from slug to bundle (`Tree`); each bundle holds the bytes of its
    index.md (if present) and the set of file names in its attachments
    subdirectory. The export-side filesystem is a list of resolved paths
    that exist on disk (`List FsPath`); directories are not modelled.
  - Subprocess collaborators (the exporter, git, osascript) are out of
    scope; git commit is modelled by its observable trigger: a commit is
    made exactly when the staged content tree differs from the tree the
    run started from (the run starts from a clean checkout).
-/

set_option maxRecDepth 10000

abbrev Str := List Char

def strL (s : String) : Str := s.toList

/-- The whitespace characters of Python str.strip with no arguments
(ASCII part). -/
def isWsChar (c : Char) : Bool :=
  c = ' ' || c = '\t' || c = '\n' || c = '\x0d' || c = '\x0b' || c = '\x0c'

/-- Python lstrip with a character predicate. -/
def dropLeading (p : Char → Bool) (s : Str) : Str := s.dropWhile p

/-- Python rstrip with a character predicate. -/
def dropTrailing (p : Char → Bool) (s : Str) : Str :=
  (s.reverse.dropWhile p).reverse

/-- Python str.strip() with no arguments. -/
def pyStrip (s : Str) : Str := dropTrailing isWsChar (dropLeading isWsChar s)

/-- Python str.strip(chars). -/
def pyStripChars (cs : List Char) (s : Str) : Str :=
  dropTrailing (fun c => cs.contains c) (dropLeading (fun c => cs.contains c) s)

/-- Python str.lower, ASCII fragment. -/
def lowerStr (s : Str) : Str := s.map Char.toLower

def startsWithStr (pre s : Str) : Bool := pre.isPrefixOf s

def endsWithStr (suf s : Str) : Bool := suf.isSuffixOf s

/-- Python str.split(sep) for a one-character separator: always returns at
least one group. -/
def splitOnChar (c : Char) (s : Str) : List Str :=
  s.foldr
    (fun ch acc =>
      if ch = c then [] :: acc
      else match acc with
        | g :: gs => (ch :: g) :: gs
        | [] => [[ch]])
    [[]]

/-- Python sep.join(parts) for a one-character separator. -/
def joinWith (c : Char) (ls : List Str) : Str := (ls.intersperse [c]).flatten

/-- Python str.splitlines for text whose line breaks are "\n": like
split("\n") but an empty string gives no lines and a trailing newline
does not open a final empty line. -/
def splitlinesStr (s : Str) : List Str :=
  if s = [] then []
  else
    let ps := splitOnChar '\n' s
    if s.getLast? = some '\n' then ps.dropLast else ps

/-- Python str.split(c, 1): the part before the first `c`, and the part
after it when `c` occurs. -/
def splitFirst (c : Char) (s : Str) : Str × Option Str :=
  match s.span (fun ch => ch ≠ c) with
  | (pre, []) => (pre, none)
  | (pre, _ :: post) => (pre, some post)

/-- Decimal digit characters, as written by Python str(int) for a Nat. -/
def digitChar (d : Nat) : Char :=
  match d with
  | 0 => '0' | 1 => '1' | 2 => '2' | 3 => '3' | 4 => '4'
  | 5 => '5' | 6 => '6' | 7 => '7' | 8 => '8' | _ => '9'

/-- The digits of n, most significant first. The fuel argument only
bounds the recursion (n shrinks by a factor of ten each step) so that
the definition is structural; started above n it never runs out. -/
def natDigitsGo : Nat → Nat → Str
  | 0, _ => []
  | fuel + 1, n =>
    if n < 10 then [digitChar n]
    else natDigitsGo fuel (n / 10) ++ [digitChar (n % 10)]

def natDigits (n : Nat) : Str := natDigitsGo (n + 1) n

def digitVal (c : Char) : Option Nat :=
  let n := c.toNat
  if 48 ≤ n ∧ n ≤ 57 then some (n - 48) else none

/-- Inverse of natDigits: the Nat a digit string denotes, none when the
string is empty or has a non-digit. -/
def digitsToNat (s : Str) : Option Nat :=
  match s with
  | [] => none
  | _ =>
    s.foldl
      (fun acc c =>
        match acc, digitVal c with
        | some a, some d => some (a * 10 + d)
        | _, _ => none)
      (some 0)

/-! ### NoteParser: slugify, identity, title, tags, slug override -/

/-- The lowercase-alphanumeric class [a-z0-9] used by slugify after
lowercasing. -/
def slugAlnum (c : Char) : Bool :=
  let lower := 'a' ≤ c && c ≤ 'z'
  let digit := '0' ≤ c && c ≤ '9'
  lower || digit

/-- re.sub(r"[^a-z0-9]+", "-", s): each maximal run of characters outside
[a-z0-9] becomes a single hyphen. The fuel argument only bounds the
recursion (each step consumes at least one character) so that the
definition is structural and computes inside the kernel; started at
length + 1 it never runs out. -/
def collapseNonAlnumGo : Nat → Str → Str
  | 0, s => s
  | _ + 1, [] => []
  | fuel + 1, c :: rest =>
    if slugAlnum c then c :: collapseNonAlnumGo fuel rest
    else '-' :: collapseNonAlnumGo fuel (rest.dropWhile (fun ch => !slugAlnum ch))

def collapseNonAlnum (s : Str) : Str := collapseNonAlnumGo (s.length + 1) s

/-- re.sub(r"-\x7b2,\x7d", "-", s): runs of hyphens become a single
hyphen. Fuel as in collapseNonAlnumGo. -/
def collapseDoubleHyphensGo : Nat → Str → Str
  | 0, s => s
  | _ + 1, [] => []
  | fuel + 1, c :: rest =>
    if c = '-' then '-' :: collapseDoubleHyphensGo fuel (rest.dropWhile (fun ch => ch = '-'))
    else c :: collapseDoubleHyphensGo fuel rest

def collapseDoubleHyphens (s : Str) : Str := collapseDoubleHyphensGo (s.length + 1) s

/-- publish.py slugify: NFKD-normalise, drop non-ASCII, lowercase, turn
non-alphanumeric runs into hyphens, strip edge hyphens, collapse hyphen
runs. On ASCII input NFKD is the identity and the ascii/ignore encoding
drops exactly the non-ASCII characters, which the first filter does. -/
def slugify (text : Str) : Str :=
  let v := text.filter (fun c => c.toNat < 128)
  let v := lowerStr v
  let v := collapseNonAlnum v
  let v := pyStripChars ['-'] v
  collapseDoubleHyphens v

/-- The regex match of r"(.+)-([A-Za-z0-9]+)$" against the stem: the
maximal alphanumeric suffix, provided it is nonempty, is preceded by a
hyphen, and at least one character precedes that hyphen. -/
def noteIdSuffix (stem : Str) : Option Str :=
  let rev := stem.reverse
  let sufRev := rev.takeWhile (fun c => c.isAlphanum)
  match rev.drop sufRev.length with
  | '-' :: r =>
    if sufRev = [] then none
    else if r = [] then none
    else some sufRev.reverse
  | _ => none

/-- publish.py parse_note_id on the filename stem. -/
def parse_note_id (stem : Str) : Str :=
  match noteIdSuffix stem with
  | some nid => nid
  | none =>
    let s := slugify stem
    if s = [] then stem else s

/-- publish.py clean_title. -/
def clean_title (line : Str) : Str :=
  let l := pyStrip line
  if startsWithStr (strL "#") l then pyStrip (dropLeading (fun c => c = '#') l)
  else l

def tagFirstChar (c : Char) : Bool := c.isAlphanum

def tagRestChar (c : Char) : Bool := c.isAlphanum || c = '_' || c = '-'

/-- re.findall(r"#([A-Za-z0-9][A-Za-z0-9_-]*)", s): the left-to-right
non-overlapping hashtag tokens. -/
def findHashTokensGo : Nat → Str → List Str
  | 0, _ => []
  | _ + 1, [] => []
  | fuel + 1, c :: rest =>
    if c = '#' then
      match rest with
      | [] => []
      | c2 :: rest2 =>
        if tagFirstChar c2 then
          (c2 :: rest2.takeWhile tagRestChar) :: findHashTokensGo fuel (rest2.dropWhile tagRestChar)
        else findHashTokensGo fuel (c2 :: rest2)
    else findHashTokensGo fuel rest

def findHashTokens (s : Str) : List Str := findHashTokensGo (s.length + 1) s

/-- publish.py parse_tags. -/
def parse_tags (line : Str) : List Str :=
  let tag_text :=
    match splitFirst ':' line with
    | (_, some post) => post
    | (_, none) => []
  (findHashTokens tag_text).map lowerStr

/-- publish.py parse_slug. -/
def parse_slug (line : Str) : Option Str :=
  match splitFirst ':' line with
  | (_, none) => none
  | (_, some post) =>
    let s := pyStrip post
    if s = [] then none else some s

def TAG_MARKER : Str := strL "tags:"

def SLUG_MARKER : Str := strL "slug:"

def CONTROL_TAGS : List Str := [strL "blog", strL "publish", strL "published"]

def PUBLISH_TAG : Str := strL "publish"

def PUBLISHED_TAG : Str := strL "published"

/-- An exported source file: directory path, filename stem, contents and
modification time (the datetime modelled as a Nat, see the header). -/
structure RawFile where
  dirPath : List Str
  stem : Str
  text : Str
  mtime : Nat
deriving DecidableEq

structure Note where
  note_id : Str
  title : Str
  tags : List Str
  slug_override : Option Str
  body : Str
  src_dir : List Str
  mtime : Nat
  has_publish : Bool
  has_published : Bool
deriving DecidableEq

structure HeaderScan where
  tag_idx : Option Nat
  tags : List Str
  slug_idx : Option Nat
  slug_override : Option Str
deriving DecidableEq

/-- One iteration of the header-window loop of parse_note_markdown: both
marker checks run on the stripped, lowercased line; a later marker line
overwrites the recorded index and value. -/
def headerStep (lines : List Str) (st : HeaderScan) (i : Nat) : HeaderScan :=
  let stripped := pyStrip (lines.getD i [])
  let lower := lowerStr stripped
  let st1 :=
    if startsWithStr TAG_MARKER lower then
      { st with tag_idx := some i, tags := parse_tags stripped }
    else st
  if startsWithStr SLUG_MARKER lower then
    { st1 with slug_idx := some i, slug_override := parse_slug stripped }
  else st1

/-- publish.py parse_note_markdown: title from the first non-blank line,
tags/slug markers from the 7-line window after it (last marker wins),
body from the remaining lines. -/
def parse_note_markdown (f : RawFile) : Option Note :=
  let lines := splitlinesStr f.text
  let non_empty := (List.range lines.length).filter (fun i => pyStrip (lines.getD i []) ≠ [])
  match non_empty with
  | [] => none
  | title_idx :: _ =>
    let title_line := clean_title (lines.getD title_idx [])
    let window := List.range' (title_idx + 1) (min (title_idx + 8) lines.length - (title_idx + 1))
    let hs := window.foldl (headerStep lines) ⟨none, [], none, none⟩
    let skips : List Nat :=
      [title_idx]
        ++ (match hs.tag_idx with | some i => [i] | none => [])
        ++ (match hs.slug_idx with | some i => [i] | none => [])
    let body_lines :=
      ((lines.enum.filter (fun p => !skips.contains p.1)).map (fun p => p.2)).dropWhile
        (fun l => pyStrip l = [])
    let body : Str :=
      if body_lines = [] then [] else pyStrip (joinWith '\n' body_lines) ++ ['\n']
    some {
      note_id := parse_note_id f.stem
      title := if title_line = [] then f.stem else title_line
      tags := hs.tags
      slug_override := hs.slug_override
      body := body
      src_dir := f.dirPath
      mtime := f.mtime
      has_publish := hs.tags.contains PUBLISH_TAG
      has_published := hs.tags.contains PUBLISHED_TAG }

/-! ### Front matter parsing and the content tree -/

inductive FMVal where
  | str (v : Str)
  | tagList (vs : List Str)
deriving DecidableEq

abbrev FM := List (Str × FMVal)

/-- Dictionary get over the entry list: the value of the last assignment
to `k`, as in a Python dict that is written in order. -/
def fmGet (fm : FM) (k : Str) : Option FMVal :=
  (fm.reverse.find? (fun p => p.1 = k)).map (fun p => p.2)

def fmGetStr (fm : FM) (k : Str) : Option Str :=
  match fmGet fm k with
  | some (FMVal.str v) => some v
  | _ => none

/-- One tag item of a dash list in the front matter:
strip, lstrip("-"), strip, strip quotes; empty is skipped. -/
def fmTagItem (l : Str) : Option Str :=
  let v := pyStripChars ['\'', '"'] (pyStrip (dropLeading (fun c => c = '-') (pyStrip l)))
  if v = [] then none else some v

/-- The inline part of a tags value: strip the surrounding brackets, split
on commas, keep the non-blank entries stripped of whitespace and
quotes. -/
def fmInlineTags (value : Str) : List Str :=
  if value = [] then []
  else
    ((splitOnChar ',' (pyStripChars ['[', ']'] value)).filter (fun t => pyStrip t ≠ [])).map
      (fun t => pyStripChars ['\'', '"'] (pyStrip t))

/-- The while loop of parse_front_matter over the lines between the
markers: a line with no colon is skipped, a "tags" key consumes the
following dash lines, every other key stores its stripped, unquoted
value. -/
def parseFmLinesGo : Nat → List Str → FM
  | 0, _ => []
  | _ + 1, [] => []
  | fuel + 1, line :: rest =>
    if line.contains ':' then
      let kv := splitFirst ':' line
      let key := pyStrip kv.1
      let value := pyStrip (kv.2.getD [])
      if key = strL "tags" then
        let base := fmInlineTags value
        let dash := rest.takeWhile (fun l => startsWithStr (strL "-") (pyStrip l))
        let rest2 := rest.dropWhile (fun l => startsWithStr (strL "-") (pyStrip l))
        (strL "tags", FMVal.tagList (base ++ dash.filterMap fmTagItem)) :: parseFmLinesGo fuel rest2
      else
        (key, FMVal.str (pyStripChars ['\'', '"'] value)) :: parseFmLinesGo fuel rest
    else parseFmLinesGo fuel rest

def parseFmLines (ls : List Str) : FM := parseFmLinesGo (ls.length + 1) ls

/-- publish.py parse_front_matter: the document must start with a "---"
line; the header runs up to the first later line that strips to "---";
the rest, with leading newlines removed, is the body. -/
def parse_front_matter (text : Str) : FM × Str :=
  if startsWithStr (strL "---\n") text then
    let lines := splitlinesStr text
    match (lines.drop 1).findIdx? (fun l => pyStrip l = strL "---") with
    | none => ([], text)
    | some j =>
      let end_idx := j + 1
      let fm_lines := (lines.take end_idx).drop 1
      let body := dropLeading (fun c => c = '\n') (joinWith '\n' (lines.drop (end_idx + 1)))
      (parseFmLines fm_lines, body)
  else ([], text)

/-- One published bundle directory: the bytes of its index.md when the
file exists, and the file names inside its attachments subdirectory. -/
structure Bundle where
  index : Option Str
  attach : List Str
deriving DecidableEq

/-- The content tree: one entry per bundle directory, keyed by slug, in
directory-listing order. -/
abbrev ContentTree := List (Str × Bundle)

def lookupB (tree : ContentTree) (slug : Str) : Option Bundle :=
  (tree.find? (fun e => e.1 = slug)).map (fun e => e.2)

/-- Whether slug/index.md exists, and its contents. -/
def lookupIndexFile (tree : ContentTree) (slug : Str) : Option Str :=
  (lookupB tree slug).bind Bundle.index

def replaceFirstB : ContentTree → Str → Bundle → ContentTree
  | [], _, _ => []
  | e :: rest, slug, b => if e.1 = slug then (slug, b) :: rest else e :: replaceFirstB rest slug b

/-- Writing a bundle directory: overwrite in place when the slug exists,
else create it at the end of the listing. -/
def upsertB (tree : ContentTree) (slug : Str) (b : Bundle) : ContentTree :=
  if (lookupB tree slug).isSome then replaceFirstB tree slug b else tree ++ [(slug, b)]

/-- Directory rename old_dir.rename(new_dir), guarded like the script:
only when the old directory exists and the new one does not. -/
def renameBundle (tree : ContentTree) (oldS newS : Str) : ContentTree :=
  match lookupB tree oldS with
  | none => tree
  | some _ =>
    if (lookupB tree newS).isSome then tree
    else tree.map (fun e => if e.1 = oldS then (newS, e.2) else e)

/-- The per-identity record of load_existing_posts. -/
structure ExistingRec where
  slug : Str
  date : Option Str
  lastmod : Option Str
deriving DecidableEq

abbrev Existing := List (Str × ExistingRec)

def exGet (m : Existing) (k : Str) : Option ExistingRec :=
  (m.find? (fun p => p.1 = k)).map (fun p => p.2)

def exSet (m : Existing) (k : Str) (r : ExistingRec) : Existing :=
  if (exGet m k).isSome then m.map (fun p => if p.1 = k then (k, r) else p)
  else m ++ [(k, r)]

/-- One bundle of the load_existing_posts scan: a bundle with an index
file whose front matter records a non-empty note_id is indexed under that
identity. -/
def loadPostsStep (m : Existing) (e : Str × Bundle) : Existing :=
  match e.2.index with
  | none => m
  | some content =>
    let fm := (parse_front_matter content).1
    match fmGetStr fm (strL "note_id") with
    | some nid =>
      if nid = [] then m
      else exSet m nid
        { slug := e.1
          date := fmGetStr fm (strL "date")
          lastmod := fmGetStr fm (strL "lastmod") }
    | none => m

/-- publish.py load_existing_posts: scan every bundle that has an index
file, parse its front matter, and index it by its recorded note_id when
that is a non-empty string. -/
def load_existing_posts (tree : ContentTree) : Existing :=
  tree.foldl loadPostsStep []

/-- publish.py ensure_unique_slug: keep the desired slug unless the
occupying index records a different non-empty note_id, in which case
append a hyphen and the first six characters of the identity. -/
def ensure_unique_slug (tree : ContentTree) (slug : Str) (note_id : Str) : Str :=
  match lookupIndexFile tree slug with
  | none => slug
  | some content =>
    match fmGetStr (parse_front_matter content).1 (strL "note_id") with
    | some existing_id =>
      if existing_id ≠ [] ∧ existing_id ≠ note_id then slug ++ '-' :: note_id.take 6
      else slug
    | none => slug

/-- publish.py format_dt: the textual timestamp written into the front
matter (isoformat, modelled as the decimal digits of the Nat). -/
def format_dt (t : Nat) : Str := natDigits t

/-- publish.py parse_dt: None stays None, a well-formed timestamp string
parses back, anything else is None. -/
def parse_dt (v : Option Str) : Option Nat :=
  match v with
  | none => none
  | some s => digitsToNat s

/-! ### LinkRewriter -/

/-- A path on the export-side filesystem, as resolved components. -/
abbrev FsPath := List Str

/-- publish.py is_local_link: strip, unwrap one layer of angle brackets,
and test the lowercased result against the non-local target shapes. -/
def is_local_link (target : Str) : Bool :=
  let t := pyStrip target
  let t :=
    if startsWithStr (strL "<") t && endsWithStr (strL ">") t then (t.drop 1).dropLast
    else t
  let l := lowerStr t
  !(startsWithStr (strL "http://") l
    || startsWithStr (strL "https://") l
    || startsWithStr (strL "mailto:") l
    || startsWithStr (strL "data:") l
    || startsWithStr (strL "#") l)

/-- publish.py split_link_target: strip; an angle-bracket-wrapped target
is unwrapped whole with no tail; otherwise split at the first space,
the tail keeping its leading space. -/
def split_link_target (raw : Str) : Str × Str :=
  let r := pyStrip raw
  if startsWithStr (strL "<") r && endsWithStr (strL ">") r then ((r.drop 1).dropLast, [])
  else
    match splitFirst ' ' r with
    | (path, some tail) => (path, ' ' :: tail)
    | (path, none) => (path, [])

/-- (md_dir / path).resolve(): join the relative textual path onto the
absolute directory and normalise empty, "." and ".." components. -/
def resolvePath (base : FsPath) (rel : Str) : FsPath :=
  (splitOnChar '/' rel).foldl
    (fun acc comp =>
      if comp = [] then acc
      else if comp = strL "." then acc
      else if comp = strL ".." then acc.dropLast
      else acc ++ [comp])
    base

/-- Path.name: the final component. -/
def baseName (p : FsPath) : Str := p.getLastD []

/-- The closure `replace` inside rewrite_links, applied to one regex
match (group1, group2, group3): the replacement text and the copy
instruction appended to the plan, if any. -/
def link_replace (fs : List FsPath) (md_dir attachments_dir : FsPath) (g1 g2 g3 : Str) :
    Str × Option (FsPath × FsPath) :=
  let pt := split_link_target g2
  let path := pt.1
  let tail := pt.2
  if !is_local_link path then (g1 ++ g2 ++ g3, none)
  else if startsWithStr (strL "/") path then (g1 ++ g2 ++ g3, none)
  else
    let source_path := resolvePath md_dir path
    if !(fs.contains source_path) then (g1 ++ g2 ++ g3, none)
    else
      let new_name := baseName source_path
      (g1 ++ strL "attachments/" ++ new_name ++ tail ++ g3,
        some (source_path, attachments_dir ++ [new_name]))

/-- One attempt of the regex (!?\[[^\]]*\]\()([^)]+)(\)) at the head of
the text: on success, group1, group2 and the rest of the text after the
match. The closing bracket group3 is always ")". -/
def try_link_match (s : Str) : Option (Str × Str × Str) :=
  let bs := match s with
    | '!' :: t => (strL "!", t)
    | _ => (([] : Str), s)
  match bs.2 with
  | '[' :: s2 =>
    let txt := s2.takeWhile (fun c => c ≠ ']')
    match s2.dropWhile (fun c => c ≠ ']') with
    | ']' :: '(' :: s4 =>
      let targ := s4.takeWhile (fun c => c ≠ ')')
      if targ = [] then none
      else
        match s4.dropWhile (fun c => c ≠ ')') with
        | ')' :: rest => some (bs.1 ++ '[' :: txt ++ strL "](", targ, rest)
        | _ => none
    | _ => none
  | _ => none

/-- The left-to-right non-overlapping scan of re.sub: try a match at
every position, emit the replacement and continue after the match, or
copy one character and move on. The fuel is the remaining length, which
each step strictly decreases, so it never runs out when started at
length + 1. -/
def rewrite_links_go (fs : List FsPath) (md_dir attachments_dir : FsPath) :
    Nat → Str → Str × List (FsPath × FsPath)
  | 0, s => (s, [])
  | _ + 1, [] => ([], [])
  | fuel + 1, c :: rest =>
    match try_link_match (c :: rest) with
    | some (g1, g2, after) =>
      let r := link_replace fs md_dir attachments_dir g1 g2 (strL ")")
      let o := rewrite_links_go fs md_dir attachments_dir fuel after
      (r.1 ++ o.1, match r.2 with | some e => e :: o.2 | none => o.2)
    | none =>
      let o := rewrite_links_go fs md_dir attachments_dir fuel rest
      (c :: o.1, o.2)

/-- publish.py rewrite_links: returns the rewritten body and the copy
plan (source path, destination inside the attachments directory). -/
def rewrite_links (fs : List FsPath) (body : Str) (md_dir bundle_dir : FsPath) :
    Str × List (FsPath × FsPath) :=
  rewrite_links_go fs md_dir (bundle_dir ++ [strL "attachments"]) (body.length + 1) body

/-! ### write_post -/

/-- The publish date of write_post: the date of the existing record when
it is a non-empty string, else the formatted modification time. -/
def wp_publish_date (existing : Option ExistingRec) (mtime : Nat) : Str :=
  match existing with
  | some r =>
    match r.date with
    | some d => if d = [] then format_dt mtime else d
    | none => format_dt mtime
  | none => format_dt mtime

/-- The persisted tag list: control tags filtered out. -/
def wp_tags (note : Note) : List Str :=
  note.tags.filter (fun t => !(CONTROL_TAGS.contains t))

/-- The front-matter lines assembled by write_post. -/
def wp_fm_lines (note : Note) (publish_date lastmod : Str) : List Str :=
  [strL "---",
   strL "title: \"" ++ note.title ++ strL "\"",
   strL "date: " ++ publish_date,
   strL "lastmod: " ++ lastmod]
  ++ (if wp_tags note = [] then []
      else strL "tags:" :: (wp_tags note).map (fun t => strL "  - " ++ t))
  ++ [strL "note_id: \"" ++ note.note_id ++ strL "\"",
      strL "---"]

/-- The serialized index.md: front matter, a blank line, the stripped
rewritten body, a trailing newline. -/
def render_post (fs : List FsPath) (note : Note) (slug : Str) (existing : Option ExistingRec) :
    Str :=
  let body := (rewrite_links fs note.body note.src_dir [slug]).1
  joinWith '\n' (wp_fm_lines note (wp_publish_date existing note.mtime) (format_dt note.mtime))
    ++ strL "\n\n" ++ pyStrip body ++ strL "\n"

/-- The attachment file names after the copy loop: each copy creates the
basename of its destination, a repeated name overwrites the file already
created. -/
def attach_list (fs : List FsPath) (note : Note) (slug : Str) : List Str :=
  ((rewrite_links fs note.body note.src_dir [slug]).2).foldl
    (fun acc sd =>
      let n := baseName sd.2
      if acc.contains n then acc else acc ++ [n])
    []

/-- publish.py write_post: make the bundle directory, remove the stale
attachments directory, copy the plan, write index.md; changed is whether
the serialized bytes differ from the previous index.md (or none
existed). The new bundle value replaces the old one wholesale, which is
exactly the rmtree-then-copy behaviour. -/
def write_post (fs : List FsPath) (tree : ContentTree) (note : Note) (slug : Str)
    (existing : Option ExistingRec) : ContentTree × Bool :=
  let content := render_post fs note slug existing
  let changed := decide (lookupIndexFile tree slug ≠ some content)
  (upsertB tree slug { index := some content, attach := attach_list fs note slug }, changed)

/-! ### PublishReconciler: the main loop -/

/-- The eligibility filter of main: tagged blog, and publish or
published. -/
def eligible_note (note : Note) : Bool :=
  note.tags.contains (strL "blog") && (note.has_publish || note.has_published)

/-- The freshness-skip test of main: published and not publish, a prior
record whose lastmod parses, and mtime not newer than it. -/
def freshness_skip (existing_info : Option ExistingRec) (note : Note) : Bool :=
  match existing_info with
  | none => false
  | some r =>
    match parse_dt r.lastmod with
    | none => false
    | some l => note.has_published && !note.has_publish && decide (note.mtime ≤ l)

/-- Python truthiness of the optional slug override. -/
def optTruthy (o : Option Str) : Bool :=
  match o with
  | some s => !s.isEmpty
  | none => false

/-- The slug-source block of main: slug override, else prior slug, else
slugified title; the raw identity when the choice is empty. -/
def slug_choice (note : Note) (existing_info : Option ExistingRec) : Str :=
  let s :=
    if optTruthy note.slug_override then slugify (note.slug_override.getD [])
    else
      match existing_info with
      | some r => r.slug
      | none => slugify note.title
  if s = [] then note.note_id else s

structure LoopState where
  tree : ContentTree
  written : Nat
  skipped : Nat
  changes : List Bool
  updated_titles : List Str
deriving DecidableEq

/-- One iteration of the for loop of main over an exported file. -/
def processNote (fs : List FsPath) (existing : Existing) (st : LoopState) (f : RawFile) :
    LoopState :=
  match parse_note_markdown f with
  | none => st
  | some note =>
    if !(note.tags.contains (strL "blog")) then st
    else if !(note.has_publish || note.has_published) then st
    else
      let existing_info := exGet existing note.note_id
      if freshness_skip existing_info note then { st with skipped := st.skipped + 1 }
      else
        let slug0 := slug_choice note existing_info
        let slug := ensure_unique_slug st.tree slug0 note.note_id
        let tree1 :=
          match existing_info with
          | some r =>
            if optTruthy note.slug_override && decide (slug ≠ r.slug) then
              renameBundle st.tree r.slug slug
            else st.tree
          | none => st.tree
        let wr := write_post fs tree1 note slug existing_info
        { tree := wr.1
          written := st.written + 1
          skipped := st.skipped
          changes := st.changes ++ [wr.2]
          updated_titles :=
            st.updated_titles ++ (if note.has_publish then [note.title] else []) }

def msg_no_files : Str := strL "No exported markdown files found."

def msg_no_matching : Str := strL "No matching notes found with #blog and #publish/#published."

def msg_processed (written skipped : Nat) : Str :=
  strL "Processed: " ++ natDigits written ++ strL ", skipped: " ++ natDigits skipped

def msg_commit (written : Nat) : Str :=
  strL "Publish " ++ natDigits written ++ strL " posts"

/-- The observable outcome of one run of main: the final content tree,
the counters, the changed flag of every write in order, the text printed
at the end, and the commit message when a commit was made. -/
structure RunResult where
  tree : ContentTree
  written : Nat
  skipped : Nat
  changes : List Bool
  output : Str
  commit : Option Str
deriving DecidableEq

/-- publish.py main on a content tree that is clean in git (the worktree
equals HEAD, which holds between runs because a run that changes the
tree commits it): load the existing index once, fold the loop over the
exported files, report, and commit exactly when the staged tree differs
from the starting one. -/
def runPipeline (fs : List FsPath) (files : List RawFile) (tree0 : ContentTree) : RunResult :=
  let existing := load_existing_posts tree0
  if files.isEmpty then
    { tree := tree0, written := 0, skipped := 0, changes := [], output := msg_no_files,
      commit := none }
  else
    let st := files.foldl (processNote fs existing) ⟨tree0, 0, 0, [], []⟩
    if st.written = 0 then
      { tree := st.tree, written := st.written, skipped := st.skipped, changes := st.changes,
        output := msg_no_matching, commit := none }
    else
      { tree := st.tree, written := st.written, skipped := st.skipped, changes := st.changes,
        output := msg_processed st.written st.skipped,
        commit := if st.tree ≠ tree0 then some (msg_commit st.written) else none }

/-! ### Derived notions used by the statements -/

/-- The parsed notes of the export set that pass the eligibility
filter. -/
def eligNotes (files : List RawFile) : List Note :=
  (files.filterMap parse_note_markdown).filter eligible_note

/-- The parsed eligible notes that the run writes: the freshness rule is
decided against the index loaded once at the start. -/
def processedNotes (files : List RawFile) (existing : Existing) : List Note :=
  (files.filterMap parse_note_markdown).filter
    (fun n => eligible_note n && !freshness_skip (exGet existing n.note_id) n)

/-- An identity whose characters survive the front-matter quoting and
stripping unchanged: non-empty, alphanumeric or hyphen. -/
def idClean (s : Str) : Bool :=
  !s.isEmpty && s.all (fun c => c.isAlphanum || c = '-')

/-- A tag that survives the front-matter dash-list round trip
unchanged. -/
def tagClean (t : Str) : Bool :=
  !t.isEmpty && t.all (fun c => c.isAlphanum || c = '_' || c = '-')

/-- A note whose identity, title and tags serialize and parse back
without loss: clean identity, no newline inside the title, clean tags.
Notes parsed from ordinarily named export files satisfy this. -/
def noteClean (n : Note) : Bool :=
  idClean n.note_id && !(n.title.contains '\n') && n.tags.all tagClean

/-- The slug a note receives on a run that starts from an empty content
tree: the slug choice with no prior record. -/
def base_slug (n : Note) : Str := slug_choice n none

/-- The bundle such a run writes for the note. -/
def first_run_bundle (fs : List FsPath) (n : Note) : Bundle :=
  { index := some (render_post fs n (base_slug n) none)
    attach := attach_list fs n (base_slug n) }

/-- The slug-source precedence as the specification words it: the
slugified explicit override when present, else the recorded slug when
the identity was seen before, else the slugified title; the raw identity
as last resort when the chosen slug is empty. -/
def slug_choice_spec (note : Note) (existing_info : Option ExistingRec) : Str :=
  let chosen :=
    match note.slug_override with
    | some ov => slugify ov
    | none =>
      match existing_info with
      | some r => r.slug
      | none => slugify note.title
  if chosen = [] then note.note_id else chosen

/-! ### Concrete inputs for witnesses and counterexamples -/

def exDir : FsPath := [strL "exp"]

/-- A note carrying the publish marker, used to exercise a full
publish-and-republish cycle. -/
def wFile : RawFile :=
  { dirPath := exDir
    stem := strL "Note-abc12"
    text := strL "# Hello World\ntags: #blog #publish\n\nSome body text.\n"
    mtime := 5 }

/-- Two export files that carry the same identity suffix "zz": the
parser derives the same identity for both notes. -/
def cexA : RawFile :=
  { dirPath := exDir
    stem := strL "A-zz"
    text := strL "# Alpha\ntags: #blog #publish\n\nBody A.\n"
    mtime := 5 }

def cexB : RawFile :=
  { dirPath := exDir
    stem := strL "B-zz"
    text := strL "# Beta\ntags: #blog #publish\n\nBody B.\n"
    mtime := 5 }

/-- A bundle written by hand into the content tree, recording identity
n1 with lastmod 200. -/
def priorDoc : Str := strL "---\nnote_id: \"n1\"\ndate: 50\nlastmod: 200\n---\n\nOld.\n"

def priorTree : ContentTree := [(strL "x", { index := some priorDoc, attach := [] })]

/-- A note for identity n1 marked published (not publish) with
modification time 100, older than the recorded lastmod 200. -/
def staleFile : RawFile :=
  { dirPath := exDir
    stem := strL "x-n1"
    text := strL "# X\ntags: #blog #published\n\nBody.\n"
    mtime := 100 }

def c3DocFoo : Str := strL "---\nnote_id: \"aaa\"\n---\n\nF.\n"

def c3DocOther : Str := strL "---\nnote_id: \"ccc\"\n---\n\nG.\n"

/-- A content tree where the desired slug foo is taken by identity aaa
and the disambiguated slug foo-bbb123 is taken by identity ccc. -/
def c3Tree : ContentTree :=
  [(strL "foo", { index := some c3DocFoo, attach := [] }),
   (strL "foo-bbb123", { index := some c3DocOther, attach := [] })]

/-- A note with an explicit slug override, for exercising the slug
precedence. -/
def c7note : Note :=
  { note_id := strL "id1"
    title := strL "A Title"
    tags := [strL "blog", strL "publish"]
    slug_override := some (strL "My Slug")
    body := strL "b\n"
    src_dir := exDir
    mtime := 3
    has_publish := true
    has_published := false }

/-- Two files that exist next to the exported note. -/
def c6fs : List FsPath := [[strL "exp", strL "img1.png"], [strL "exp", strL "img2.png"]]

/-- A note whose body references both files. -/
def c6note : Note :=
  { note_id := strL "n6"
    title := strL "T"
    tags := [strL "blog"]
    slug_override := none
    body := strL "a ![x](img1.png) b [y](./img2.png) c\n"
    src_dir := exDir
    mtime := 1
    has_publish := true
    has_published := false }

/-- The note parse_note_markdown produces for staleFile. -/
def staleNote : Note :=
  { note_id := strL "n1"
    title := strL "X"
    tags := [strL "blog", strL "published"]
    slug_override := none
    body := strL "Body.\n"
    src_dir := exDir
    mtime := 100
    has_publish := false
    has_published := true }

/-- Concrete markdown file with duplicate tags and slug marker lines,
used to witness the last-marker-wins behaviour. -/
def c10file : RawFile :=
  { dirPath := [], stem := strL "n-x1",
    text := joinWith '\n' [strL "# T", strL "tags: #a", strL "slug: one",
      strL "tags: #b", strL "slug: two", [], [], [], strL "Body."],
    mtime := 0 }

/-- The content-tree entry a run starting from an empty tree writes for
an eligible note. -/
def entryOf (fs : List FsPath) (n : Note) : Str × Bundle :=
  (base_slug n, first_run_bundle fs n)

/-- The existing-posts record that load_existing_posts recovers from
such an entry. -/
def recOf (n : Note) : ExistingRec :=
  { slug := base_slug n
    date := some (format_dt n.mtime)
    lastmod := some (format_dt n.mtime) }

/-! ### Theorems -/

theorem splitOnChar_nil (c : Char) : splitOnChar c [] = [[]] := rfl

theorem splitOnChar_cons (c x : Char) (xs : Str) :
    splitOnChar c (x :: xs) =
      if x = c then [] :: splitOnChar c xs
      else
        match splitOnChar c xs with
        | g :: gs => (x :: g) :: gs
        | [] => [[x]] := rfl

theorem splitOnChar_ne_nil (c : Char) (s : Str) : splitOnChar c s ≠ [] := by
  induction s with
  | nil => simp [splitOnChar_nil]
  | cons x xs ih =>
    rw [splitOnChar_cons]
    split
    · simp
    · match h : splitOnChar c xs with
      | [] => exact absurd h ih
      | g :: gs => simp

theorem splitOnChar_no_sep (c : Char) (s : Str) (h : c ∉ s) : splitOnChar c s = [s] := by
  induction s with
  | nil => simp [splitOnChar_nil]
  | cons x xs ih =>
    rw [splitOnChar_cons]
    have hx : x ≠ c := by
      intro hc; exact h (hc ▸ List.mem_cons_self x xs)
    rw [if_neg hx, ih (fun hm => h (List.mem_cons_of_mem x hm))]

theorem splitOnChar_append_sep (c : Char) (x y : Str) (hx : c ∉ x) :
    splitOnChar c (x ++ c :: y) = x :: splitOnChar c y := by
  induction x with
  | nil =>
    simp only [List.nil_append]
    rw [splitOnChar_cons, if_pos rfl]
  | cons a as ih =>
    have ha : a ≠ c := by
      intro hc; exact hx (hc ▸ List.mem_cons_self a as)
    have ih2 := ih (fun hm => hx (List.mem_cons_of_mem a hm))
    simp only [List.cons_append]
    rw [splitOnChar_cons, if_neg ha, ih2]

theorem joinWith_singleton (c : Char) (a : Str) : joinWith c [a] = a := by
  simp [joinWith]

theorem joinWith_cons (c : Char) (a : Str) (L : List Str) (h : L ≠ []) :
    joinWith c (a :: L) = a ++ c :: joinWith c L := by
  match L with
  | [] => exact absurd rfl h
  | b :: L' => simp [joinWith, List.intersperse]

theorem splitOnChar_joinWith (c : Char) (L : List Str) (hL : L ≠ [])
    (h : ∀ l ∈ L, c ∉ l) : splitOnChar c (joinWith c L) = L := by
  induction L with
  | nil => exact absurd rfl hL
  | cons a L' ih =>
    match hL' : L' with
    | [] =>
      rw [joinWith_singleton]
      exact splitOnChar_no_sep c a (h a (List.mem_cons_self a []))
    | b :: L'' =>
      rw [joinWith_cons c a (b :: L'') (by simp)]
      rw [splitOnChar_append_sep c a _ (h a (List.mem_cons_self a _))]
      rw [ih (by simp) (fun l hl => h l (List.mem_cons_of_mem a hl))]

theorem splitOnChar_joinWith_append (c : Char) (L : List Str) (r : Str) (hL : L ≠ [])
    (h : ∀ l ∈ L, c ∉ l) :
    splitOnChar c (joinWith c L ++ c :: r) = L ++ splitOnChar c r := by
  induction L with
  | nil => exact absurd rfl hL
  | cons a L' ih =>
    match hL' : L' with
    | [] =>
      rw [joinWith_singleton]
      rw [splitOnChar_append_sep c a r (h a (List.mem_cons_self a []))]
      rfl
    | b :: L'' =>
      rw [joinWith_cons c a (b :: L'') (by simp)]
      rw [List.append_assoc]
      simp only [List.cons_append]
      rw [splitOnChar_append_sep c a _ (h a (List.mem_cons_self a _))]
      rw [ih (by simp) (fun l hl => h l (List.mem_cons_of_mem a hl))]
      rfl

theorem dropWhile_head_false {p : Char → Bool} {s : Str}
    (h : ∀ c, s.head? = some c → p c = false) : s.dropWhile p = s := by
  match s with
  | [] => rfl
  | x :: xs =>
    simp only [List.dropWhile]
    rw [h x rfl]

theorem dropTrailing_last_false {p : Char → Bool} {s : Str}
    (h : ∀ c, s.getLast? = some c → p c = false) : dropTrailing p s = s := by
  unfold dropTrailing
  rw [dropWhile_head_false, List.reverse_reverse]
  intro c hc
  exact h c (by rwa [List.head?_reverse] at hc)

theorem pyStrip_no_ws {s : Str}
    (hh : ∀ c, s.head? = some c → isWsChar c = false)
    (hl : ∀ c, s.getLast? = some c → isWsChar c = false) : pyStrip s = s := by
  unfold pyStrip dropLeading
  rw [dropWhile_head_false hh, dropTrailing_last_false hl]

theorem digitVal_digitChar (d : Nat) (h : d < 10) : digitVal (digitChar d) = some d := by
  interval_cases d <;> rfl

theorem natDigitsGo_eq : ∀ f f' n : Nat, n < f → n < f' → natDigitsGo f n = natDigitsGo f' n := by
  intro f
  induction f with
  | zero => intro f' n h; omega
  | succ fu ih =>
    intro f' n hf hf'
    match f' with
    | 0 => omega
    | fu' + 1 =>
      show natDigitsGo (fu + 1) n = natDigitsGo (fu' + 1) n
      simp only [natDigitsGo]
      split
      · rfl
      · rename_i h10
        have hn : n / 10 < n := Nat.div_lt_self (by omega) (by omega)
        rw [ih fu' (n / 10) (by omega) (by omega)]

theorem natDigits_unfold (n : Nat) :
    natDigits n = if n < 10 then [digitChar n] else natDigits (n / 10) ++ [digitChar (n % 10)] := by
  have hstep : natDigitsGo (n + 1) n
      = if n < 10 then [digitChar n] else natDigitsGo n (n / 10) ++ [digitChar (n % 10)] := rfl
  show natDigitsGo (n + 1) n = _
  rw [hstep]
  split
  · rfl
  · rename_i h10
    have hn : n / 10 < n := Nat.div_lt_self (by omega) (by omega)
    congr 1
    show natDigitsGo n (n / 10) = natDigitsGo (n / 10 + 1) (n / 10)
    exact natDigitsGo_eq n (n / 10 + 1) (n / 10) (by omega) (by omega)

theorem natDigits_ne_nil (n : Nat) : natDigits n ≠ [] := by
  rw [natDigits_unfold]
  split <;> simp

theorem natDigits_mem_digit (n : Nat) :
    ∀ c ∈ natDigits n, c.isDigit = true := by
  induction n using Nat.strong_induction_on with
  | _ n ih =>
    rw [natDigits_unfold]
    split
    · rename_i h
      intro c hc
      simp only [List.mem_singleton] at hc
      subst hc
      interval_cases n <;> decide
    · rename_i h
      intro c hc
      rcases List.mem_append.1 hc with h1 | h2
      · exact ih (n / 10) (Nat.div_lt_self (by omega) (by omega)) c h1
      · simp only [List.mem_singleton] at h2
        subst h2
        have hm : n % 10 < 10 := Nat.mod_lt _ (by omega)
        interval_cases hx : n % 10 <;> decide

theorem natDigits_foldl (n : Nat) : ∀ a : Nat,
    (natDigits n).foldl
      (fun acc c =>
        match acc, digitVal c with
        | some x, some d => some (x * 10 + d)
        | _, _ => none)
      (some a) = some (a * 10 ^ (natDigits n).length + n) := by
  induction n using Nat.strong_induction_on with
  | _ n ih =>
    intro a
    rw [natDigits_unfold]
    split
    · rename_i h
      simp only [List.foldl_cons, List.foldl_nil, List.length_singleton]
      rw [digitVal_digitChar n h]
      norm_num
    · rename_i h
      rw [List.foldl_append]
      rw [ih (n / 10) (Nat.div_lt_self (by omega) (by omega)) a]
      simp only [List.foldl_cons, List.foldl_nil, List.length_append,
        List.length_singleton]
      rw [digitVal_digitChar (n % 10) (Nat.mod_lt _ (by omega))]
      show some ((a * 10 ^ (natDigits (n / 10)).length + n / 10) * 10 + n % 10)
          = some (a * 10 ^ ((natDigits (n / 10)).length + 1) + n)
      rw [pow_succ]
      have hd : 10 * (n / 10) + n % 10 = n := Nat.div_add_mod n 10
      have he : (a * 10 ^ (natDigits (n / 10)).length + n / 10) * 10 + n % 10
          = a * (10 ^ (natDigits (n / 10)).length * 10) + (10 * (n / 10) + n % 10) := by ring
      rw [he, hd]

theorem digitsToNat_natDigits (n : Nat) : digitsToNat (natDigits n) = some n := by
  have h := natDigits_foldl n 0
  unfold digitsToNat
  match hx : natDigits n with
  | [] => exact absurd hx (natDigits_ne_nil n)
  | c :: rest =>
    rw [hx] at h
    simpa using h

theorem parseFmLinesGo_eq : ∀ f f' ls, ls.length < f → ls.length < f' →
    parseFmLinesGo f ls = parseFmLinesGo f' ls := by
  intro f
  induction f with
  | zero => intro f' ls h _; omega
  | succ fu ih =>
    intro f' ls hf hf'
    match f', ls with
    | 0, _ => omega
    | fu' + 1, [] => rfl
    | fu' + 1, line :: rest =>
      have hlen : rest.length < fu := by
        simp only [List.length_cons] at hf; omega
      have hlen' : rest.length < fu' := by
        simp only [List.length_cons] at hf'; omega
      have hdrop :
          (rest.dropWhile (fun l => startsWithStr (strL "-") (pyStrip l))).length ≤ rest.length :=
        (List.dropWhile_sublist _ (l := rest)).length_le
      simp only [parseFmLinesGo]
      split
      · split
        · congr 1
          exact ih fu' _ (by omega) (by omega)
        · congr 1
          exact ih fu' rest hlen hlen'
      · exact ih fu' rest hlen hlen'

theorem parseFmLines_nil : parseFmLines [] = [] := rfl

theorem parseFmLines_cons (line : Str) (rest : List Str) :
    parseFmLines (line :: rest) =
      (if line.contains ':' then
        let kv := splitFirst ':' line
        let key := pyStrip kv.1
        let value := pyStrip (kv.2.getD [])
        if key = strL "tags" then
          (strL "tags",
            FMVal.tagList
              (fmInlineTags value
                ++ (rest.takeWhile (fun l => startsWithStr (strL "-") (pyStrip l))).filterMap
                     fmTagItem))
            :: parseFmLines (rest.dropWhile (fun l => startsWithStr (strL "-") (pyStrip l)))
        else
          (key, FMVal.str (pyStripChars ['\'', '"'] value)) :: parseFmLines rest
      else parseFmLines rest) := by
  have hdrop :
      (rest.dropWhile (fun l => startsWithStr (strL "-") (pyStrip l))).length ≤ rest.length :=
    (List.dropWhile_sublist _ (l := rest)).length_le
  show parseFmLinesGo (rest.length + 2) (line :: rest) = _
  simp only [parseFmLinesGo]
  split
  · split
    · exact congrArg _ (parseFmLinesGo_eq _ _ _ (by omega) (by omega))
    · exact congrArg _ (parseFmLinesGo_eq _ _ _ (by omega) (by omega))
  · exact parseFmLinesGo_eq _ _ _ (by omega) (by omega)

/-- C7. Slug source precedence: the base slug passed to uniqueness
resolution is the slugified explicit override when one is present, else
the prior record slug when the identity was indexed, else the slugified
title, with the raw identity as last resort when the choice is empty.
The hypothesis rules out the override being present as the empty string,
which parse_slug never produces. -/
theorem slug_source_precedence (note : Note) (ei : Option ExistingRec)
    (h : note.slug_override ≠ some []) :
    slug_choice note ei = slug_choice_spec note ei := by
  unfold slug_choice slug_choice_spec optTruthy
  match hov : note.slug_override with
  | some ov =>
    have hne : ov ≠ [] := by
      intro he
      exact h (by rw [hov, he])
    simp [Option.getD, hne]
  | none =>
    match ei with
    | some r => simp
    | none => simp

theorem slug_source_precedence_witness :
    (c7note.slug_override ≠ some []) ∧ slug_choice c7note none = slug_choice_spec c7note none :=
  ⟨by decide, slug_source_precedence c7note none (by decide)⟩

/-- C3 (amended). ensure_unique_slug prefers the desired slug: it is
returned unchanged when no index occupies it or the occupant records no
identity, an empty identity, or the same identity; otherwise the first
six characters of the identity are appended after a hyphen, giving a
slug different from the desired one (but not checked against the rest of
the tree). -/
theorem ensure_unique_slug_cases (tree : ContentTree) (slug note_id : Str) :
    (lookupIndexFile tree slug = none → ensure_unique_slug tree slug note_id = slug) ∧
    (∀ content, lookupIndexFile tree slug = some content →
      (fmGetStr (parse_front_matter content).1 (strL "note_id") = none ∨
       fmGetStr (parse_front_matter content).1 (strL "note_id") = some [] ∨
       fmGetStr (parse_front_matter content).1 (strL "note_id") = some note_id) →
      ensure_unique_slug tree slug note_id = slug) ∧
    (∀ content oid, lookupIndexFile tree slug = some content →
      fmGetStr (parse_front_matter content).1 (strL "note_id") = some oid →
      oid ≠ [] → oid ≠ note_id →
      ensure_unique_slug tree slug note_id = slug ++ '-' :: note_id.take 6 ∧
      ensure_unique_slug tree slug note_id ≠ slug) := by
  refine ⟨?_, ?_, ?_⟩
  · intro h
    simp [ensure_unique_slug, h]
  · intro content hc hid
    rcases hid with h | h | h <;> simp [ensure_unique_slug, hc, h]
  · intro content oid hc hid hne hneid
    have hmain : ensure_unique_slug tree slug note_id = slug ++ '-' :: note_id.take 6 := by
      simp [ensure_unique_slug, hc, hid, hne, hneid]
    refine ⟨hmain, ?_⟩
    rw [hmain]
    intro he
    have hlen := congrArg List.length he
    simp only [List.length_append, List.length_cons] at hlen
    omega

/-- C3 counterexample: in c3Tree the desired slug foo is occupied by a
different identity, so the function appends the six-character fragment,
but the resulting slug foo-bbb123 is itself an existing bundle recording
yet another identity: the returned slug is not unique in the tree. -/
theorem ensure_unique_slug_not_unique :
    ensure_unique_slug c3Tree (strL "foo") (strL "bbb123xyz") = strL "foo-bbb123" ∧
    lookupIndexFile c3Tree (strL "foo-bbb123") = some c3DocOther ∧
    fmGetStr (parse_front_matter c3DocOther).1 (strL "note_id") = some (strL "ccc") ∧
    (strL "ccc" : Str) ≠ strL "bbb123xyz" := by
  exact ⟨by decide, by decide, by decide, by decide⟩

theorem ensure_unique_slug_cases_witness :
    ensure_unique_slug c3Tree (strL "foo") (strL "bbb123xyz")
      = strL "foo" ++ '-' :: (strL "bbb123xyz").take 6 ∧
    ensure_unique_slug c3Tree (strL "foo") (strL "bbb123xyz") ≠ strL "foo" :=
  (ensure_unique_slug_cases c3Tree (strL "foo") (strL "bbb123xyz")).2.2 c3DocFoo (strL "aaa")
    (by decide) (by decide) (by decide) (by decide)

theorem lookupB_cons (e : Str × Bundle) (rest : ContentTree) (slug : Str) :
    lookupB (e :: rest) slug = if e.1 = slug then some e.2 else lookupB rest slug := by
  by_cases he : e.1 = slug
  · unfold lookupB
    rw [List.find?_cons_of_pos _ (by simp [he]), if_pos he]
    rfl
  · unfold lookupB
    rw [List.find?_cons_of_neg _ (by simp [he]), if_neg he]

theorem lookupB_replaceFirstB_self (tree : ContentTree) (slug : Str) (b : Bundle)
    (h : (lookupB tree slug).isSome) : lookupB (replaceFirstB tree slug b) slug = some b := by
  induction tree with
  | nil => simp [lookupB] at h
  | cons e rest ih =>
    by_cases he : e.1 = slug
    · simp only [replaceFirstB, if_pos he]
      rw [lookupB_cons]
      simp
    · simp only [replaceFirstB, if_neg he]
      rw [lookupB_cons, if_neg he]
      rw [lookupB_cons, if_neg he] at h
      exact ih h

theorem lookupB_append_single (tree : ContentTree) (slug : Str) (b : Bundle)
    (h : lookupB tree slug = none) : lookupB (tree ++ [(slug, b)]) slug = some b := by
  induction tree with
  | nil =>
    rw [List.nil_append, lookupB_cons]
    simp
  | cons e rest ih =>
    rw [List.cons_append, lookupB_cons]
    rw [lookupB_cons] at h
    by_cases he : e.1 = slug
    · rw [if_pos he] at h
      exact absurd h (by simp)
    · rw [if_neg he] at h ⊢
      exact ih h

theorem lookupB_upsertB_self (tree : ContentTree) (slug : Str) (b : Bundle) :
    lookupB (upsertB tree slug b) slug = some b := by
  unfold upsertB
  split
  · exact lookupB_replaceFirstB_self tree slug b (by assumption)
  · rename_i h
    refine lookupB_append_single tree slug b ?_
    cases hx : lookupB tree slug
    · rfl
    · rw [hx] at h
      simp at h

theorem render_post_shape (fs : List FsPath) (note : Note) (slug : Str)
    (existing : Option ExistingRec) :
    ∃ rest, render_post fs note slug existing
      = strL "---" ++ ('\n' :: (strL "title: \"" ++ note.title ++ strL "\""
          ++ ('\n' :: (strL "date: " ++ wp_publish_date existing note.mtime
          ++ ('\n' :: (strL "lastmod: " ++ format_dt note.mtime
          ++ ('\n' :: rest))))))) := by
  unfold render_post wp_fm_lines
  refine ⟨joinWith '\n'
      ((if wp_tags note = [] then []
        else strL "tags:" :: (wp_tags note).map (fun t => strL "  - " ++ t))
        ++ [strL "note_id: \"" ++ note.note_id ++ strL "\"", strL "---"])
      ++ strL "\n\n"
      ++ pyStrip (rewrite_links fs note.body note.src_dir [slug]).1 ++ strL "\n", ?_⟩
  simp only [List.cons_append, List.nil_append]
  rw [joinWith_cons _ _ _ (by simp)]
  rw [joinWith_cons _ _ _ (by simp)]
  rw [joinWith_cons _ _ _ (by simp)]
  rw [joinWith_cons _ _ _ (by simp)]
  simp [List.append_assoc]

/-- C2. Publish-date immutability: write_post serializes a date field
equal to the indexed record date whenever that record carries a
non-empty date, and a lastmod field always equal to the formatted
modification time; the date falls back to the modification time exactly
when there is no prior record or no usable prior date. -/
theorem write_post_date_immutable (fs : List FsPath) (tree : ContentTree) (note : Note)
    (slug : Str) (existing : Option ExistingRec) :
    ∃ c rest,
      lookupIndexFile (write_post fs tree note slug existing).1 slug = some c ∧
      c = strL "---" ++ ('\n' :: (strL "title: \"" ++ note.title ++ strL "\""
          ++ ('\n' :: (strL "date: " ++ wp_publish_date existing note.mtime
          ++ ('\n' :: (strL "lastmod: " ++ format_dt note.mtime
          ++ ('\n' :: rest))))))) ∧
      (∀ r d, existing = some r → r.date = some d → d ≠ [] →
        wp_publish_date existing note.mtime = d) ∧
      ((∀ r, existing = some r → (r.date = none ∨ r.date = some [])) →
        wp_publish_date existing note.mtime = format_dt note.mtime) := by
  obtain ⟨rest, hshape⟩ := render_post_shape fs note slug existing
  refine ⟨render_post fs note slug existing, rest, ?_, hshape, ?_, ?_⟩
  · unfold write_post lookupIndexFile
    rw [lookupB_upsertB_self]
    rfl
  · intro r d hr hd hne
    subst hr
    simp [wp_publish_date, hd, hne]
  · intro h
    match hx : existing with
    | none => rfl
    | some r =>
      rcases h r rfl with hd | hd <;> simp [wp_publish_date, hd]

theorem write_post_date_immutable_witness :
    wp_publish_date (some { slug := strL "s", date := some (strL "50"), lastmod := some (strL "60") })
      c7note.mtime = strL "50" := by
  obtain ⟨c, rest, h1, h2, h3, h4⟩ :=
    write_post_date_immutable [] [] c7note (strL "s")
      (some { slug := strL "s", date := some (strL "50"), lastmod := some (strL "60") })
  exact h3 _ (strL "50") rfl rfl (by decide)

theorem dedup_foldl_mem (l : List Str) :
    ∀ acc n, n ∈ l.foldl (fun acc x => if acc.contains x then acc else acc ++ [x]) acc
      ↔ n ∈ acc ∨ n ∈ l := by
  induction l with
  | nil => intro acc n; simp
  | cons x xs ih =>
    intro acc n
    rw [List.foldl_cons, ih]
    by_cases hc : acc.contains x
    · rw [if_pos hc]
      have hx : x ∈ acc := by simpa using hc
      constructor
      · rintro (h | h)
        · exact Or.inl h
        · exact Or.inr (List.mem_cons_of_mem x h)
      · rintro (h | h)
        · exact Or.inl h
        · rcases List.mem_cons.1 h with h | h
          · exact Or.inl (h ▸ hx)
          · exact Or.inr h
    · rw [if_neg hc]
      simp only [List.mem_append, List.mem_singleton, List.mem_cons]
      tauto
  
theorem dedup_foldl_nodup (l : List Str) (h : l.Nodup) :
    ∀ acc, (∀ x ∈ l, acc.contains x = false) →
      l.foldl (fun acc x => if acc.contains x then acc else acc ++ [x]) acc = acc ++ l := by
  induction l with
  | nil => intro acc _; simp
  | cons x xs ih =>
    intro acc hacc
    rw [List.foldl_cons]
    rw [if_neg (by rw [hacc x (List.mem_cons_self x xs)]; simp)]
    rw [ih (List.Nodup.of_cons h) (acc ++ [x]) ?_]
    · simp
    · intro y hy
      have hyx : y ≠ x := by
        intro he
        subst he
        exact (List.nodup_cons.1 h).1 hy
      have hcy : acc.contains y = false := hacc y (List.mem_cons_of_mem x hy)
      have hny : y ∉ acc := by simpa using hcy
      have : y ∉ acc ++ [x] := by simp [hny, hyx]
      simpa using this

theorem attach_list_eq (fs : List FsPath) (note : Note) (slug : Str) :
    attach_list fs note slug
      = (((rewrite_links fs note.body note.src_dir [slug]).2).map (fun sd => baseName sd.2)).foldl
          (fun acc n => if acc.contains n then acc else acc ++ [n]) [] := by
  unfold attach_list
  rw [List.foldl_map]

/-- C6. Attachment completeness: write_post leaves the bundle attachment
directory holding exactly the basenames of the copy plan of
rewrite_links, whatever the tree held before (the stale directory is
removed wholesale before copying); when the plan basenames are distinct
the directory holds exactly that list. -/
theorem write_post_attachments_exact (fs : List FsPath) (tree : ContentTree) (note : Note)
    (slug : Str) (existing : Option ExistingRec) :
    ((lookupB (write_post fs tree note slug existing).1 slug).map Bundle.attach)
        = some (attach_list fs note slug) ∧
    (∀ n, n ∈ attach_list fs note slug ↔
        n ∈ ((rewrite_links fs note.body note.src_dir [slug]).2).map (fun sd => baseName sd.2)) ∧
    ((((rewrite_links fs note.body note.src_dir [slug]).2).map (fun sd => baseName sd.2)).Nodup →
        attach_list fs note slug
          = ((rewrite_links fs note.body note.src_dir [slug]).2).map (fun sd => baseName sd.2)) := by
  refine ⟨?_, ?_, ?_⟩
  · unfold write_post
    rw [lookupB_upsertB_self]
    rfl
  · intro n
    rw [attach_list_eq, dedup_foldl_mem]
    simp
  · intro hnodup
    rw [attach_list_eq, dedup_foldl_nodup _ hnodup [] (by intro x _; rfl)]
    simp

theorem write_post_attachments_exact_witness :
    attach_list c6fs c6note (strL "s")
      = ((rewrite_links c6fs c6note.body c6note.src_dir [strL "s"]).2).map (fun sd => baseName sd.2) :=
  (write_post_attachments_exact c6fs [] c6note (strL "s") none).2.2 (by decide)

/-- C5. Link rewriting, stated on the per-match replacement that the
re.sub scan applies to every link or image occurrence (group1 is the
opening text through the bracket, group2 the raw target, group3 the
closing bracket): the match is left untouched byte-for-byte and nothing
is queued exactly when, after split_link_target separates the optional
angle-bracket wrapping or the space-separated annotation, the path is
non-local, absolute, or does not resolve to a file on disk; otherwise
the target becomes attachments/basename with the annotation preserved
verbatim and the copy pair is queued. The last part ties is_local_link
to the claimed prefix shapes on the unwrapped, lowercased target. -/
theorem link_rewrite_cases (fs : List FsPath) (md_dir ad : FsPath) (g1 g2 g3 : Str) :
    ((is_local_link (split_link_target g2).1 = false
        ∨ startsWithStr (strL "/") (split_link_target g2).1 = true
        ∨ fs.contains (resolvePath md_dir (split_link_target g2).1) = false) →
      link_replace fs md_dir ad g1 g2 g3 = (g1 ++ g2 ++ g3, none)) ∧
    (is_local_link (split_link_target g2).1 = true →
      startsWithStr (strL "/") (split_link_target g2).1 = false →
      fs.contains (resolvePath md_dir (split_link_target g2).1) = true →
      link_replace fs md_dir ad g1 g2 g3
        = (g1 ++ strL "attachments/" ++ baseName (resolvePath md_dir (split_link_target g2).1)
            ++ (split_link_target g2).2 ++ g3,
           some (resolvePath md_dir (split_link_target g2).1,
             ad ++ [baseName (resolvePath md_dir (split_link_target g2).1)]))) ∧
    (∀ p, is_local_link p = false ↔
      (let t := pyStrip p
       let t2 := if startsWithStr (strL "<") t && endsWithStr (strL ">") t
         then (t.drop 1).dropLast else t
       let l := lowerStr t2
       startsWithStr (strL "http://") l = true ∨ startsWithStr (strL "https://") l = true
         ∨ startsWithStr (strL "mailto:") l = true ∨ startsWithStr (strL "data:") l = true
         ∨ startsWithStr (strL "#") l = true)) := by
  refine ⟨?_, ?_, ?_⟩
  · intro h
    unfold link_replace
    rcases h with h | h | h
    · simp [h]
    · by_cases hl : is_local_link (split_link_target g2).1
      · simp [hl, h]
      · simp [hl]
    · by_cases hl : is_local_link (split_link_target g2).1
      · by_cases hs : startsWithStr (strL "/") (split_link_target g2).1
        · simp [hl, hs]
        · have hm : resolvePath md_dir (split_link_target g2).1 ∉ fs := by simpa using h
          simp [hl, hs, hm]
      · simp [hl]
  · intro h1 h2 h3
    have hm : resolvePath md_dir (split_link_target g2).1 ∈ fs := by simpa using h3
    unfold link_replace
    simp [h1, h2, hm]
  · intro p
    unfold is_local_link
    have hb : ∀ x : Bool, ((!x) = false) ↔ x = true := by
      intro x
      cases x <;> simp
    rw [hb]
    simp only [Bool.or_eq_true]
    tauto

theorem link_rewrite_cases_witness :
    link_replace [[strL "exp", strL "img1.png"]] exDir (exDir ++ [strL "attachments"])
        (strL "![a photo](") (strL "./img1.png") (strL ")")
      = (strL "![a photo](" ++ strL "attachments/"
          ++ baseName (resolvePath exDir (split_link_target (strL "./img1.png")).1)
          ++ (split_link_target (strL "./img1.png")).2 ++ strL ")",
         some (resolvePath exDir (split_link_target (strL "./img1.png")).1,
           (exDir ++ [strL "attachments"])
             ++ [baseName (resolvePath exDir (split_link_target (strL "./img1.png")).1)])) :=
  (link_rewrite_cases [[strL "exp", strL "img1.png"]] exDir (exDir ++ [strL "attachments"])
      (strL "![a photo](") (strL "./img1.png") (strL ")")).2.1
    (by decide) (by decide) (by decide)

theorem freshness_skip_iff_prop (ei : Option ExistingRec) (note : Note) :
    freshness_skip ei note = true ↔
      (note.has_published = true ∧ note.has_publish = false ∧
        ∃ r l, ei = some r ∧ parse_dt r.lastmod = some l ∧ note.mtime ≤ l) := by
  match ei with
  | none => simp [freshness_skip]
  | some r =>
    cases hl : parse_dt r.lastmod with
    | none => simp [freshness_skip, hl]
    | some l =>
      simp only [freshness_skip, hl, Bool.and_eq_true, Bool.not_eq_true', decide_eq_true_eq,
        Option.some.injEq]
      constructor
      · rintro ⟨⟨hpub, hnp⟩, hle⟩
        exact ⟨hpub, hnp, r, l, rfl, hl, hle⟩
      · rintro ⟨hpub, hnp, r', l', hr, hl', hle⟩
        cases hr
        rw [hl] at hl'
        cases hl'
        exact ⟨⟨hpub, hnp⟩, hle⟩

/-- C4. Freshness skip: an eligible parsed note is skipped, with no
write and the skipped counter advanced, exactly when it is marked
published and not publish and the prior record for its identity has a
last-modified time at least the note modification time; in every other
eligible case the written counter advances and a write is appended. -/
theorem freshness_skip_decides (fs : List FsPath) (existing : Existing) (st : LoopState)
    (f : RawFile) (note : Note)
    (hp : parse_note_markdown f = some note)
    (hblog : note.tags.contains (strL "blog") = true)
    (hmark : (note.has_publish || note.has_published) = true) :
    (processNote fs existing st f = { st with skipped := st.skipped + 1 } ↔
      (note.has_published = true ∧ note.has_publish = false ∧
        ∃ r l, exGet existing note.note_id = some r ∧ parse_dt r.lastmod = some l ∧
          note.mtime ≤ l)) ∧
    (¬ (note.has_published = true ∧ note.has_publish = false ∧
        ∃ r l, exGet existing note.note_id = some r ∧ parse_dt r.lastmod = some l ∧
          note.mtime ≤ l) →
      (processNote fs existing st f).written = st.written + 1 ∧
      (processNote fs existing st f).skipped = st.skipped ∧
      (processNote fs existing st f).changes.length = st.changes.length + 1) := by
  have hblog' : strL "blog" ∈ note.tags := by simpa using hblog
  by_cases hfs : freshness_skip (exGet existing note.note_id) note = true
  · have hstep : processNote fs existing st f = { st with skipped := st.skipped + 1 } := by
      simp [processNote, hp, hblog', hmark, hfs]
    have hprop := (freshness_skip_iff_prop (exGet existing note.note_id) note).1 hfs
    refine ⟨⟨fun _ => hprop, fun _ => hstep⟩, fun hnot => absurd hprop hnot⟩
  · have hfs' : freshness_skip (exGet existing note.note_id) note = false := by
      simpa using hfs
    have hnoprop : ¬ (note.has_published = true ∧ note.has_publish = false ∧
        ∃ r l, exGet existing note.note_id = some r ∧ parse_dt r.lastmod = some l ∧
          note.mtime ≤ l) := by
      intro hprop
      rw [(freshness_skip_iff_prop (exGet existing note.note_id) note).2 hprop] at hfs'
      simp at hfs'
    have hstep : (processNote fs existing st f).written = st.written + 1 ∧
        (processNote fs existing st f).skipped = st.skipped ∧
        (processNote fs existing st f).changes.length = st.changes.length + 1 := by
      simp [processNote, hp, hblog', hmark, hfs']
    refine ⟨⟨fun he => ?_, fun hprop => absurd hprop hnoprop⟩, fun _ => hstep⟩
    have hw := congrArg LoopState.written he
    rw [hstep.1] at hw
    simp at hw

theorem freshness_skip_decides_witness :
    processNote [] (load_existing_posts priorTree)
        { tree := priorTree, written := 0, skipped := 0, changes := [], updated_titles := [] }
        staleFile
      = { tree := priorTree, written := 0, skipped := 1, changes := [], updated_titles := [] } :=
  (freshness_skip_decides [] (load_existing_posts priorTree)
      { tree := priorTree, written := 0, skipped := 0, changes := [], updated_titles := [] }
      staleFile staleNote (by decide) (by decide) (by decide)).1.mpr
    ⟨by decide, by decide,
      ⟨{ slug := strL "x", date := some (strL "50"), lastmod := some (strL "200") }, 200,
        by decide, by decide, by decide⟩⟩

theorem processNote_not_eligible (fs : List FsPath) (existing : Existing) (st : LoopState)
    (f : RawFile) (note : Note) (hp : parse_note_markdown f = some note)
    (h : eligible_note note = false) : processNote fs existing st f = st := by
  unfold eligible_note at h
  rcases Bool.and_eq_false_iff.1 h with hc | hm
  · have hnm : strL "blog" ∉ note.tags := by simpa using hc
    simp [processNote, hp, hnm]
  · by_cases hcc : note.tags.contains (strL "blog") = true
    · have : strL "blog" ∈ note.tags := by simpa using hcc
      simp [processNote, hp, this, hm]
    · have hcf : note.tags.contains (strL "blog") = false := by simpa using hcc
      have : strL "blog" ∉ note.tags := by simpa using hcf
      simp [processNote, hp, this]

theorem processNote_written_fields (fs : List FsPath) (existing : Existing) (st : LoopState)
    (f : RawFile) (note : Note) (hp : parse_note_markdown f = some note)
    (helig : eligible_note note = true)
    (hskip : freshness_skip (exGet existing note.note_id) note = false) :
    (processNote fs existing st f).written = st.written + 1 ∧
    (processNote fs existing st f).skipped = st.skipped ∧
    (processNote fs existing st f).changes.length = st.changes.length + 1 := by
  obtain ⟨hc, hm⟩ : note.tags.contains (strL "blog") = true
      ∧ (note.has_publish || note.has_published) = true := by
    unfold eligible_note at helig
    exact Bool.and_eq_true _ _ ▸ helig
  have hmem : strL "blog" ∈ note.tags := by simpa using hc
  refine ⟨?_, ?_, ?_⟩ <;> simp [processNote, hp, hmem, hm, hskip]

theorem processNote_skip_state (fs : List FsPath) (existing : Existing) (st : LoopState)
    (f : RawFile) (note : Note) (hp : parse_note_markdown f = some note)
    (helig : eligible_note note = true)
    (hskip : freshness_skip (exGet existing note.note_id) note = true) :
    processNote fs existing st f = { st with skipped := st.skipped + 1 } := by
  obtain ⟨hc, hm⟩ : note.tags.contains (strL "blog") = true
      ∧ (note.has_publish || note.has_published) = true := by
    unfold eligible_note at helig
    exact Bool.and_eq_true _ _ ▸ helig
  have hmem : strL "blog" ∈ note.tags := by simpa using hc
  simp [processNote, hp, hmem, hm, hskip]

theorem fold_counts (fs : List FsPath) (existing : Existing) :
    ∀ (files : List RawFile) (st : LoopState),
      (files.foldl (processNote fs existing) st).written
          = st.written + (processedNotes files existing).length ∧
      (files.foldl (processNote fs existing) st).changes.length
          = st.changes.length + (processedNotes files existing).length := by
  intro files
  induction files with
  | nil => intro st; simp [processedNotes]
  | cons f rest ih =>
    intro st
    rw [List.foldl_cons]
    cases hp : parse_note_markdown f with
    | none =>
      have hpn : processNote fs existing st f = st := by simp [processNote, hp]
      have hlist : processedNotes (f :: rest) existing = processedNotes rest existing := by
        simp [processedNotes, List.filterMap_cons, hp]
      rw [hlist, hpn]
      exact ih st
    | some note =>
      by_cases helig : eligible_note note = true
      · by_cases hskip : freshness_skip (exGet existing note.note_id) note = true
        · have hpn := processNote_skip_state fs existing st f note hp helig hskip
          have hlist : processedNotes (f :: rest) existing = processedNotes rest existing := by
            simp [processedNotes, List.filterMap_cons, hp, List.filter_cons, helig, hskip]
          rw [hlist, hpn]
          have := ih { st with skipped := st.skipped + 1 }
          simpa using this
        · have hskip' : freshness_skip (exGet existing note.note_id) note = false := by
            simpa using hskip
          have hpn := processNote_written_fields fs existing st f note hp helig hskip'
          have hlist : processedNotes (f :: rest) existing
              = note :: processedNotes rest existing := by
            simp [processedNotes, List.filterMap_cons, hp, List.filter_cons, helig, hskip']
          rw [hlist]
          have hrest := ih (processNote fs existing st f)
          rw [hrest.1, hrest.2, hpn.1, hpn.2.2]
          constructor <;> simp <;> omega
      · have helig' : eligible_note note = false := by simpa using helig
        have hpn := processNote_not_eligible fs existing st f note hp helig'
        have hlist : processedNotes (f :: rest) existing = processedNotes rest existing := by
          simp [processedNotes, List.filterMap_cons, hp, List.filter_cons, helig']
        rw [hlist, hpn]
        exact ih st

/-- C9. The written counter counts every eligible, non-skipped note: the
changed flag that write_post returns is discarded by the loop, so
written equals the number of processed notes and the number of write
calls (one changed flag each), and both the report and the commit
message are built from that count, not from how many bundles changed. -/
theorem written_counts_processed (fs : List FsPath) (files : List RawFile) (tree0 : ContentTree) :
    (runPipeline fs files tree0).written
        = (processedNotes files (load_existing_posts tree0)).length ∧
    (runPipeline fs files tree0).changes.length = (runPipeline fs files tree0).written ∧
    ((runPipeline fs files tree0).commit = none ∨
      (runPipeline fs files tree0).commit
        = some (msg_commit (runPipeline fs files tree0).written)) := by
  unfold runPipeline
  cases hfe : files.isEmpty
  · have hc := fold_counts fs (load_existing_posts tree0) files
      ⟨tree0, 0, 0, [], []⟩
    simp only [hfe, Bool.false_eq_true, if_false]
    by_cases hw : (files.foldl (processNote fs (load_existing_posts tree0))
        ⟨tree0, 0, 0, [], []⟩).written = 0
    · rw [if_pos hw]
      dsimp only
      refine ⟨?_, ?_, Or.inl rfl⟩
      · rw [hc.1]
        simp
      · rw [hc.2, hc.1]
        simp
    · rw [if_neg hw]
      dsimp only
      refine ⟨?_, ?_, ?_⟩
      · rw [hc.1]
        simp
      · rw [hc.2, hc.1]
        simp
      · split
        · exact Or.inr rfl
        · exact Or.inl rfl
  · have : files = [] := List.isEmpty_iff.1 hfe
    subst this
    simp [processedNotes]

/-- C8 (amended). Outcome reporting: when exported files were found, the
run prints the processed/skipped counts only when at least one note was
written; whenever written is zero — including runs whose eligible notes
were all skipped by the freshness rule — it prints the no-matching-notes
message instead, so the skipped count goes unreported in that case. -/
theorem run_output_reporting (fs : List FsPath) (files : List RawFile) (tree0 : ContentTree)
    (h : files ≠ []) :
    (0 < (runPipeline fs files tree0).written →
      (runPipeline fs files tree0).output
        = msg_processed (runPipeline fs files tree0).written
            (runPipeline fs files tree0).skipped) ∧
    ((runPipeline fs files tree0).written = 0 →
      (runPipeline fs files tree0).output = msg_no_matching) := by
  have hfe : files.isEmpty = false := by
    cases files
    · exact absurd rfl h
    · rfl
  unfold runPipeline
  rw [hfe]
  simp only [Bool.false_eq_true, if_false]
  by_cases hw : (files.foldl (processNote fs (load_existing_posts tree0))
      ⟨tree0, 0, 0, [], []⟩).written = 0
  · rw [if_pos hw]
    dsimp only
    exact ⟨fun hlt => by omega, fun _ => rfl⟩
  · rw [if_neg hw]
    dsimp only
    exact ⟨fun _ => rfl, fun he => absurd he hw⟩

theorem run_output_reporting_witness :
    (runPipeline [] [wFile] []).output
      = msg_processed (runPipeline [] [wFile] []).written (runPipeline [] [wFile] []).skipped :=
  (run_output_reporting [] [wFile] [] (by decide)).1 (by decide)

/-- C8 counterexample: a run whose only eligible note is skipped by the
freshness rule (written 0, skipped 1) prints the no-matching-notes
message, not the counts the claim promises. -/
theorem skipped_only_run_reports_no_matching :
    (runPipeline [] [staleFile] priorTree).written = 0 ∧
    (runPipeline [] [staleFile] priorTree).skipped = 1 ∧
    (runPipeline [] [staleFile] priorTree).output = msg_no_matching ∧
    (runPipeline [] [staleFile] priorTree).output ≠ msg_processed 0 1 :=
  ⟨by decide, by decide, by decide, by decide⟩

theorem length_dropTrailing_le (p : Char → Bool) (s : Str) :
    (dropTrailing p s).length ≤ s.length := by
  unfold dropTrailing
  rw [List.length_reverse]
  calc (s.reverse.dropWhile p).length ≤ s.reverse.length :=
        (List.dropWhile_sublist p (l := s.reverse)).length_le
    _ = s.length := List.length_reverse s

theorem length_pyStrip_le (s : Str) : (pyStrip s).length ≤ s.length := by
  unfold pyStrip dropLeading
  calc (dropTrailing isWsChar (s.dropWhile isWsChar)).length
      ≤ (s.dropWhile isWsChar).length := length_dropTrailing_le _ _
    _ ≤ s.length := (List.dropWhile_sublist isWsChar (l := s)).length_le

theorem dropWhile_getLast? (p : Char → Bool) (s : Str) (h : s.dropWhile p ≠ []) :
    (s.dropWhile p).getLast? = s.getLast? := by
  induction s with
  | nil => simp [List.dropWhile] at h
  | cons x xs ih =>
    by_cases hx : p x = true
    · have hd : (x :: xs).dropWhile p = xs.dropWhile p := by
        simp [List.dropWhile, hx]
      rw [hd] at h ⊢
      rw [ih h]
      have hxs : xs ≠ [] := by
        intro he
        subst he
        simp [List.dropWhile] at h
      rw [show x :: xs = [x] ++ xs from rfl, List.getLast?_append_of_ne_nil [x] hxs]
    · have hd : (x :: xs).dropWhile p = x :: xs := by
        simp [List.dropWhile, hx]
      rw [hd]

theorem pyStrip_eq_self_edges {s : Str} (h : pyStrip s = s) (hs : s ≠ []) :
    (∀ c, s.head? = some c → isWsChar c = false) ∧
    (∀ c, s.getLast? = some c → isWsChar c = false) := by
  constructor
  · intro c hc
    match s, hc with
    | c :: rest, rfl =>
      by_cases hw : isWsChar c = true
      · exfalso
        have h1 : dropLeading isWsChar (c :: rest) = rest.dropWhile isWsChar := by
          simp [dropLeading, List.dropWhile, hw]
        have hlen : (pyStrip (c :: rest)).length ≤ rest.length := by
          unfold pyStrip
          rw [h1]
          calc (dropTrailing isWsChar (rest.dropWhile isWsChar)).length
              ≤ (rest.dropWhile isWsChar).length := length_dropTrailing_le _ _
            _ ≤ rest.length := (List.dropWhile_sublist isWsChar (l := rest)).length_le
        rw [h] at hlen
        simp at hlen
      · simpa using hw
  · intro c hc
    by_cases hw : isWsChar c = true
    · exfalso
      cases hd : dropLeading isWsChar s with
      | nil =>
        have : pyStrip s = [] := by
          unfold pyStrip
          rw [hd]
          rfl
        rw [h] at this
        exact hs this
      | cons d ds =>
        have hne : dropLeading isWsChar s ≠ [] := by rw [hd]; simp
        have hlast : (dropLeading isWsChar s).getLast? = some c := by
          unfold dropLeading at hne ⊢
          rw [dropWhile_getLast? isWsChar s hne]
          exact hc
        have hrev : (dropLeading isWsChar s).reverse.head? = some c := by
          rwa [List.head?_reverse]
        have hlen : (pyStrip s).length < (dropLeading isWsChar s).length := by
          unfold pyStrip dropTrailing
          rw [List.length_reverse]
          match hrv : (dropLeading isWsChar s).reverse, hrev with
          | c :: rs, rfl =>
            have h2 : (c :: rs).dropWhile isWsChar = rs.dropWhile isWsChar := by
              simp [List.dropWhile, hw]
            rw [h2]
            have : (rs.dropWhile isWsChar).length ≤ rs.length :=
              (List.dropWhile_sublist isWsChar (l := rs)).length_le
            have hlenrv : (dropLeading isWsChar s).length = rs.length + 1 := by
              rw [← List.length_reverse (dropLeading isWsChar s), hrv]
              simp
            rw [hlenrv]
            omega
        have hle : (dropLeading isWsChar s).length ≤ s.length :=
          (List.dropWhile_sublist isWsChar (l := s)).length_le
        rw [h] at hlen
        omega
    · simpa using hw

theorem joinWith_concat_ne_nil (c : Char) (L : List Str) (b : Str) (hb : b ≠ []) :
    joinWith c (L ++ [b]) ≠ [] := by
  induction L with
  | nil =>
    rw [List.nil_append, joinWith_singleton]
    exact hb
  | cons a L' ih =>
    rw [List.cons_append, joinWith_cons _ _ _ (by simp)]
    simp

theorem getLast?_joinWith_concat (c : Char) (L : List Str) (b : Str) (hb : b ≠ []) :
    (joinWith c (L ++ [b])).getLast? = b.getLast? := by
  induction L with
  | nil =>
    rw [List.nil_append, joinWith_singleton]
  | cons a L' ih =>
    rw [List.cons_append, joinWith_cons _ _ _ (by simp)]
    rw [List.getLast?_append_of_ne_nil a (by simp)]
    rw [show c :: joinWith c (L' ++ [b]) = [c] ++ joinWith c (L' ++ [b]) from rfl]
    rw [List.getLast?_append_of_ne_nil [c] (joinWith_concat_ne_nil c L' b hb)]
    exact ih

theorem splitlinesStr_joinWith_concat (L : List Str) (b : Str)
    (h : ∀ l ∈ L ++ [b], ('\n') ∉ l) (hb : b ≠ []) :
    splitlinesStr (joinWith '\n' (L ++ [b])) = L ++ [b] := by
  unfold splitlinesStr
  rw [if_neg (joinWith_concat_ne_nil '\n' L b hb)]
  have hlast := getLast?_joinWith_concat '\n' L b hb
  cases hbl : b.getLast? with
  | none =>
    exfalso
    rw [List.getLast?_eq_none_iff] at hbl
    exact hb hbl
  | some d =>
    have hd : d ∈ b := List.mem_of_mem_getLast? hbl
    have hdn : d ≠ '\n' := by
      intro he
      subst he
      exact h b (by simp) hd
    rw [hlast, hbl]
    rw [if_neg (by simpa using hdn)]
    exact splitOnChar_joinWith '\n' (L ++ [b]) (by simp) h

theorem ws_toLower {c : Char} (h : isWsChar c = true) : Char.toLower c = c := by
  unfold isWsChar at h
  have h' : ((((c = ' ' ∨ c = '\t') ∨ c = '\n') ∨ c = '\x0d') ∨ c = '\x0b') ∨ c = '\x0c' := by
    simpa using h
  rcases h' with ((((rfl | rfl) | rfl) | rfl) | rfl) | rfl <;> decide

theorem tag_marker_head {l : Str} (h : startsWithStr TAG_MARKER (lowerStr l) = true) :
    ∃ c rest, l = c :: rest ∧ Char.toLower c = 't' := by
  match l with
  | [] => simp [startsWithStr, lowerStr, TAG_MARKER, strL, List.isPrefixOf] at h
  | c :: rest =>
    refine ⟨c, rest, rfl, ?_⟩
    have h2 : TAG_MARKER.isPrefixOf (Char.toLower c :: lowerStr rest) = true := h
    rw [show TAG_MARKER = 't' :: strL "ags:" from rfl] at h2
    simp only [List.isPrefixOf, Bool.and_eq_true, beq_iff_eq] at h2
    exact h2.1.symm

theorem slug_marker_head {l : Str} (h : startsWithStr SLUG_MARKER (lowerStr l) = true) :
    ∃ c rest, l = c :: rest ∧ Char.toLower c = 's' := by
  match l with
  | [] => simp [startsWithStr, lowerStr, SLUG_MARKER, strL, List.isPrefixOf] at h
  | c :: rest =>
    refine ⟨c, rest, rfl, ?_⟩
    have h2 : SLUG_MARKER.isPrefixOf (Char.toLower c :: lowerStr rest) = true := h
    rw [show SLUG_MARKER = 's' :: strL "lug:" from rfl] at h2
    simp only [List.isPrefixOf, Bool.and_eq_true, beq_iff_eq] at h2
    exact h2.1.symm

theorem tag_not_slug {l : Str} (h : startsWithStr TAG_MARKER (lowerStr l) = true) :
    startsWithStr SLUG_MARKER (lowerStr l) = false := by
  obtain ⟨c, rest, rfl, hc⟩ := tag_marker_head h
  show SLUG_MARKER.isPrefixOf (lowerStr (c :: rest)) = false
  rw [show SLUG_MARKER = 's' :: strL "lug:" from rfl]
  simp [lowerStr, List.isPrefixOf, hc]

theorem slug_not_tag {l : Str} (h : startsWithStr SLUG_MARKER (lowerStr l) = true) :
    startsWithStr TAG_MARKER (lowerStr l) = false := by
  obtain ⟨c, rest, rfl, hc⟩ := slug_marker_head h
  show TAG_MARKER.isPrefixOf (lowerStr (c :: rest)) = false
  rw [show TAG_MARKER = 't' :: strL "ags:" from rfl]
  simp [lowerStr, List.isPrefixOf, hc]

theorem tag_marker_not_nil {l : Str} (h : startsWithStr TAG_MARKER (lowerStr l) = true) :
    l ≠ [] := by
  obtain ⟨c, rest, rfl, _⟩ := tag_marker_head h
  simp

theorem tag_marker_head_not_ws {l : Str} (h : startsWithStr TAG_MARKER (lowerStr l) = true) :
    ∀ c, l.head? = some c → isWsChar c = false := by
  obtain ⟨c, rest, rfl, hc⟩ := tag_marker_head h
  intro d hd
  simp only [List.head?_cons, Option.some.injEq] at hd
  subst hd
  by_cases hw : isWsChar c = true
  · exfalso
    rw [ws_toLower hw] at hc
    subst hc
    simp [isWsChar] at hw
  · simpa using hw

/-- C10: when more than one line in the 7-line header window after the title begins
with the "tags:" (resp. "slug:") marker, the honored tags (resp. slug override) come
from the LAST such line, and only that last line is removed from the body — the
earlier duplicate marker lines remain verbatim in the published body text. -/
theorem duplicate_marker_last_wins (title t1 s1 t2 s2 b : Str) (f : RawFile)
    (hf : f.text = joinWith '\n' [title, t1, s1, t2, s2, [], [], [], b])
    (htitle : pyStrip title ≠ [])
    (hnlt : ('\n') ∉ title)
    (hnl1 : ('\n') ∉ t1) (hnl2 : ('\n') ∉ s1) (hnl3 : ('\n') ∉ t2) (hnl4 : ('\n') ∉ s2)
    (hnlb : ('\n') ∉ b)
    (ht1 : pyStrip t1 = t1) (ht1m : startsWithStr TAG_MARKER (lowerStr t1) = true)
    (hs1 : pyStrip s1 = s1) (hs1m : startsWithStr SLUG_MARKER (lowerStr s1) = true)
    (ht2 : pyStrip t2 = t2) (ht2m : startsWithStr TAG_MARKER (lowerStr t2) = true)
    (hs2 : pyStrip s2 = s2) (hs2m : startsWithStr SLUG_MARKER (lowerStr s2) = true)
    (hb : pyStrip b = b) (hbne : b ≠ []) :
    ∃ note, parse_note_markdown f = some note ∧
      note.tags = parse_tags t2 ∧
      note.slug_override = parse_slug s2 ∧
      note.body = t1 ++ ('\n' :: (s1 ++ ('\n' :: ('\n' :: ('\n' :: ('\n' :: (b ++ ['\n']))))))) := by
  have hlines : splitlinesStr f.text = [title, t1, s1, t2, s2, [], [], [], b] := by
    rw [hf]
    exact splitlinesStr_joinWith_concat [title, t1, s1, t2, s2, [], [], []] b
      (by
        intro l hl
        simp only [List.mem_append, List.mem_cons, List.not_mem_nil, or_false] at hl
        rcases hl with (rfl | rfl | rfl | rfl | rfl | rfl | rfl | rfl) | rfl <;>
          first
            | exact hnlt | exact hnl1 | exact hnl2 | exact hnl3 | exact hnl4 | exact hnlb
            | simp)
      hbne
  have hne1 : t1 ≠ [] := tag_marker_not_nil ht1m
  have hne2 : s1 ≠ [] := by
    obtain ⟨c, rest, hrw, _⟩ := slug_marker_head hs1m
    rw [hrw]
    simp
  have hne3 : t2 ≠ [] := tag_marker_not_nil ht2m
  have hne4 : s2 ≠ [] := by
    obtain ⟨c, rest, hrw, _⟩ := slug_marker_head hs2m
    rw [hrw]
    simp
  have hmt : startsWithStr TAG_MARKER ([] : Str) = false := by decide
  have hms : startsWithStr SLUG_MARKER ([] : Str) = false := by decide
  have hpsn : pyStrip ([] : Str) = [] := rfl
  have hlsn : lowerStr ([] : Str) = [] := rfl
  have h9 : (0 + 1 + 1 + 1 + 1 + 1 + 1 + 1 + 1 + 1 : Nat) = 9 := by norm_num
  have hrange : List.range 9 = [0, 1, 2, 3, 4, 5, 6, 7, 8] := rfl
  have g0 : [title, t1, s1, t2, s2, [], [], [], b].getD 0 [] = title := rfl
  have g1 : [title, t1, s1, t2, s2, [], [], [], b].getD 1 [] = t1 := rfl
  have g2 : [title, t1, s1, t2, s2, [], [], [], b].getD 2 [] = s1 := rfl
  have g3 : [title, t1, s1, t2, s2, [], [], [], b].getD 3 [] = t2 := rfl
  have g4 : [title, t1, s1, t2, s2, [], [], [], b].getD 4 [] = s2 := rfl
  have g5 : [title, t1, s1, t2, s2, [], [], [], b].getD 5 [] = [] := rfl
  have g6 : [title, t1, s1, t2, s2, [], [], [], b].getD 6 [] = [] := rfl
  have g7 : [title, t1, s1, t2, s2, [], [], [], b].getD 7 [] = [] := rfl
  have g8 : [title, t1, s1, t2, s2, [], [], [], b].getD 8 [] = b := rfl
  have d0 : decide (pyStrip title ≠ []) = true := by simp [htitle]
  have d1 : decide (pyStrip t1 ≠ []) = true := by simp [ht1, hne1]
  have d2 : decide (pyStrip s1 ≠ []) = true := by simp [hs1, hne2]
  have d3 : decide (pyStrip t2 ≠ []) = true := by simp [ht2, hne3]
  have d4 : decide (pyStrip s2 ≠ []) = true := by simp [hs2, hne4]
  have d5 : decide (pyStrip ([] : Str) ≠ []) = false := by decide
  have d8 : decide (pyStrip b ≠ []) = true := by simp [hb, hbne]
  simp only [parse_note_markdown, hlines]
  simp only [List.length_cons, List.length_nil, h9, hrange]
  simp only [List.filter_cons, List.filter_nil, g0, g1, g2, g3, g4, g5, g6, g7, g8]
  simp only [d0, d1, d2, d3, d4, d5, d8, if_true, if_false]
  have hfold : List.foldl (headerStep [title, t1, s1, t2, s2, [], [], [], b])
      { tag_idx := none, tags := [], slug_idx := none, slug_override := none }
      (List.range' (0 + 1) ((0 + 8) ⊓ 9 - (0 + 1)))
      = { tag_idx := some 3, tags := parse_tags t2, slug_idx := some 4,
          slug_override := parse_slug s2 } := by
    rw [show List.range' (0 + 1) ((0 + 8) ⊓ 9 - (0 + 1)) = [1, 2, 3, 4, 5, 6, 7] from by decide]
    simp only [List.foldl_cons, List.foldl_nil]
    simp only [headerStep, g1, g2, g3, g4, g5, g6, g7, ht1, hs1, ht2, hs2, hpsn, hlsn,
      ht1m, hs1m, ht2m, hs2m, tag_not_slug ht1m, slug_not_tag hs1m, tag_not_slug ht2m,
      slug_not_tag hs2m, hmt, hms, if_true, if_false]
    rfl
  rw [hfold]
  have henum : [title, t1, s1, t2, s2, [], [], [], b].enum
      = [(0, title), (1, t1), (2, s1), (3, t2), (4, s2), (5, ([] : Str)), (6, ([] : Str)),
         (7, ([] : Str)), (8, b)] := rfl
  simp only [henum, List.filter_cons, List.filter_nil, List.map_cons, List.map_nil]
  have k0 : (!([0] ++ [3] ++ [4] : List Nat).contains 0) = false := by decide
  have k1 : (!([0] ++ [3] ++ [4] : List Nat).contains 1) = true := by decide
  have k2 : (!([0] ++ [3] ++ [4] : List Nat).contains 2) = true := by decide
  have k3 : (!([0] ++ [3] ++ [4] : List Nat).contains 3) = false := by decide
  have k4 : (!([0] ++ [3] ++ [4] : List Nat).contains 4) = false := by decide
  have k5 : (!([0] ++ [3] ++ [4] : List Nat).contains 5) = true := by decide
  have k6 : (!([0] ++ [3] ++ [4] : List Nat).contains 6) = true := by decide
  have k7 : (!([0] ++ [3] ++ [4] : List Nat).contains 7) = true := by decide
  have k8 : (!([0] ++ [3] ++ [4] : List Nat).contains 8) = true := by decide
  simp only [k0, k1, k2, k3, k4, k5, k6, k7, k8, if_true, if_false, List.map_cons, List.map_nil]
  have dw1 : decide (pyStrip t1 = []) = false := by simp [ht1, hne1]
  simp only [Bool.false_eq_true, Bool.true_eq_false, if_false, if_true, List.map_cons,
    List.map_nil, List.dropWhile, dw1]
  rw [if_neg (show ¬ ([t1, s1, [], [], [], b] : List Str) = [] from by simp)]
  have hjoin : joinWith '\n' [t1, s1, [], [], [], b]
      = t1 ++ ('\n' :: (s1 ++ '\n' :: '\n' :: '\n' :: '\n' :: b)) := by
    rw [joinWith_cons _ _ _ (by simp), joinWith_cons _ _ _ (by simp),
      joinWith_cons _ _ _ (by simp), joinWith_cons _ _ _ (by simp),
      joinWith_cons _ _ _ (by simp), joinWith_singleton]
    simp
  rw [hjoin]
  have hhead : ∀ c, (t1 ++ ('\n' :: (s1 ++ '\n' :: '\n' :: '\n' :: '\n' :: b))).head? = some c →
      isWsChar c = false := by
    obtain ⟨x, xs, hx, _⟩ := tag_marker_head ht1m
    rw [hx]
    intro c hc
    simp only [List.cons_append, List.head?_cons, Option.some.injEq] at hc
    subst hc
    exact tag_marker_head_not_ws ht1m _ (by rw [hx]; rfl)
  have hglast : (t1 ++ ('\n' :: (s1 ++ '\n' :: '\n' :: '\n' :: '\n' :: b))).getLast?
      = b.getLast? := by
    rw [List.getLast?_append_of_ne_nil t1 (by simp)]
    rw [show ('\n' :: (s1 ++ '\n' :: '\n' :: '\n' :: '\n' :: b))
        = ['\n'] ++ (s1 ++ '\n' :: '\n' :: '\n' :: '\n' :: b) from rfl]
    rw [List.getLast?_append_of_ne_nil ['\n'] (by simp)]
    rw [List.getLast?_append_of_ne_nil s1 (by simp)]
    rw [show ('\n' :: '\n' :: '\n' :: '\n' :: b) = ['\n', '\n', '\n', '\n'] ++ b from rfl]
    rw [List.getLast?_append_of_ne_nil _ hbne]
  have hlastws : ∀ c,
      (t1 ++ ('\n' :: (s1 ++ '\n' :: '\n' :: '\n' :: '\n' :: b))).getLast? = some c →
      isWsChar c = false := by
    intro c hc
    rw [hglast] at hc
    exact (pyStrip_eq_self_edges hb hbne).2 c hc
  rw [pyStrip_no_ws hhead hlastws]
  refine ⟨_, rfl, rfl, rfl, ?_⟩
  simp [List.append_assoc, List.cons_append]


theorem duplicate_marker_last_wins_witness :
    ∃ note, parse_note_markdown c10file = some note ∧
      note.tags = parse_tags (strL "tags: #b") ∧
      note.slug_override = parse_slug (strL "slug: two") ∧
      note.body = strL "tags: #a" ++ ('\n' :: (strL "slug: one" ++
        ('\n' :: ('\n' :: ('\n' :: ('\n' :: (strL "Body." ++ ['\n']))))))) :=
  duplicate_marker_last_wins (strL "# T") (strL "tags: #a") (strL "slug: one")
    (strL "tags: #b") (strL "slug: two") (strL "Body.") c10file rfl
    (by decide) (by decide) (by decide) (by decide) (by decide) (by decide) (by decide)
    (by decide) (by decide) (by decide) (by decide) (by decide) (by decide)
    (by decide) (by decide) (by decide) (by decide)

theorem splitFirst_at (c : Char) (A B : Str) (hA : c ∉ A) :
    splitFirst c (A ++ c :: B) = (A, some B) := by
  induction A with
  | nil =>
    simp only [List.nil_append]
    unfold splitFirst
    rw [List.span_eq_take_drop]
    simp
  | cons a as ih =>
    have ha : a ≠ c := by
      intro hc; exact hA (hc ▸ List.mem_cons_self a as)
    have ih2 := ih (fun hm => hA (List.mem_cons_of_mem a hm))
    unfold splitFirst at ih2 ⊢
    rw [List.span_eq_take_drop] at ih2 ⊢
    simp only [List.cons_append, List.takeWhile_cons, List.dropWhile_cons]
    have : (decide (a ≠ c)) = true := by simp [ha]
    rw [this]
    simp only [if_true]
    match h2 : (as ++ c :: B).dropWhile (fun ch => decide (ch ≠ c)) with
    | [] =>
      rw [h2] at ih2
      exact absurd ih2 (by simp)
    | d :: ds =>
      rw [h2] at ih2
      simp only at ih2
      obtain ⟨h3, h4⟩ := Prod.mk.injEq .. ▸ ih2
      simp only [Option.some.injEq] at h4
      have h3' : List.takeWhile (fun ch => !decide (ch = c)) (as ++ c :: B) = as := by
        have he : (fun ch => !decide (ch = c)) = (fun ch : Char => decide (ch ≠ c)) := by
          funext ch
          simp [decide_not]
        rw [he]
        exact h3
      simp [h3', h4]

theorem findIdx_skip {p : Str → Bool} (A : List Str) (x : Str) (B : List Str)
    (hA : ∀ l ∈ A, p l = false) (hx : p x = true) :
    (A ++ x :: B).findIdx? p = some A.length := by
  induction A with
  | nil => simp [List.findIdx?, hx]
  | cons a as ih =>
    have ha : p a = false := hA a (List.mem_cons_self a as)
    have ih2 := ih (fun l hl => hA l (List.mem_cons_of_mem a hl))
    simp only [List.cons_append, List.findIdx?_cons, ha, Bool.false_eq_true, if_false,
      List.findIdx?_succ, ih2, List.length_cons]
    rfl

theorem splitOnChar_concat_sep (c : Char) (xs : Str) :
    splitOnChar c (xs ++ [c]) = splitOnChar c xs ++ [[]] := by
  induction xs with
  | nil =>
    rw [List.nil_append, splitOnChar_cons, if_pos rfl]
    rfl
  | cons a as ih =>
    by_cases ha : a = c
    · subst ha
      simp only [List.cons_append]
      rw [splitOnChar_cons, if_pos rfl, splitOnChar_cons, if_pos rfl, ih]
      simp
    · simp only [List.cons_append]
      rw [splitOnChar_cons, if_neg ha, splitOnChar_cons, if_neg ha, ih]
      match h : splitOnChar c as with
      | [] => exact absurd h (splitOnChar_ne_nil c as)
      | g :: gs => simp

theorem idChar_facts {c : Char} (h : (c.isAlphanum || c = '-') = true) :
    isWsChar c = false ∧ c ≠ '\'' ∧ c ≠ '"' ∧ c ≠ ':' ∧ c ≠ '\n' := by
  refine ⟨?_, ?_, ?_, ?_, ?_⟩
  · cases hb : isWsChar c
    · rfl
    · exfalso
      unfold isWsChar at hb
      have hb' : ((((c = ' ' ∨ c = '\t') ∨ c = '\n') ∨ c = '\x0d') ∨ c = '\x0b') ∨ c = '\x0c' := by
        simpa using hb
      rcases hb' with ((((rfl | rfl) | rfl) | rfl) | rfl) | rfl <;> exact absurd h (by decide)
  · intro hc
    subst hc
    exact absurd h (by decide)
  · intro hc
    subst hc
    exact absurd h (by decide)
  · intro hc
    subst hc
    exact absurd h (by decide)
  · intro hc
    subst hc
    exact absurd h (by decide)

theorem tagChar_facts {c : Char} (h : (c.isAlphanum || c = '_' || c = '-') = true) :
    isWsChar c = false ∧ c ≠ '\n' := by
  constructor
  · cases hb : isWsChar c
    · rfl
    · exfalso
      unfold isWsChar at hb
      have hb' : ((((c = ' ' ∨ c = '\t') ∨ c = '\n') ∨ c = '\x0d') ∨ c = '\x0b') ∨ c = '\x0c' := by
        simpa using hb
      rcases hb' with ((((rfl | rfl) | rfl) | rfl) | rfl) | rfl <;> exact absurd h (by decide)
  · intro hc
    subst hc
    exact absurd h (by decide)

theorem idClean_spec {s : Str} (h : idClean s = true) :
    s ≠ [] ∧ ∀ c ∈ s, (c.isAlphanum || c = '-') = true := by
  unfold idClean at h
  obtain ⟨h1, h2⟩ : (!s.isEmpty) = true ∧ s.all (fun c => c.isAlphanum || c = '-') = true :=
    Bool.and_eq_true _ _ ▸ h
  constructor
  · intro he
    subst he
    simp at h1
  · intro c hc
    exact List.all_eq_true.1 h2 c hc

theorem tagClean_spec {t : Str} (h : tagClean t = true) :
    t ≠ [] ∧ ∀ c ∈ t, (c.isAlphanum || c = '_' || c = '-') = true := by
  unfold tagClean at h
  obtain ⟨h1, h2⟩ : (!t.isEmpty) = true ∧ t.all (fun c => c.isAlphanum || c = '_' || c = '-') = true :=
    Bool.and_eq_true _ _ ▸ h
  constructor
  · intro he
    subst he
    simp at h1
  · intro c hc
    exact List.all_eq_true.1 h2 c hc

theorem digit_char_facts {c : Char} (h : c.isDigit = true) :
    isWsChar c = false ∧ c ≠ '\'' ∧ c ≠ '"' ∧ c ≠ '\n' := by
  refine ⟨?_, ?_, ?_, ?_⟩
  · cases hb : isWsChar c
    · rfl
    · exfalso
      unfold isWsChar at hb
      have hb' : ((((c = ' ' ∨ c = '\t') ∨ c = '\n') ∨ c = '\x0d') ∨ c = '\x0b') ∨ c = '\x0c' := by
        simpa using hb
      rcases hb' with ((((rfl | rfl) | rfl) | rfl) | rfl) | rfl <;> exact absurd h (by decide)
  · intro hc
    subst hc
    exact absurd h (by decide)
  · intro hc
    subst hc
    exact absurd h (by decide)
  · intro hc
    subst hc
    exact absurd h (by decide)

theorem natDigits_no_ws (n : Nat) : ∀ c ∈ natDigits n, isWsChar c = false :=
  fun c hc => (digit_char_facts (natDigits_mem_digit n c hc)).1

theorem natDigits_no_nl (n : Nat) : '\n' ∉ natDigits n := by
  intro hm
  exact absurd rfl (digit_char_facts (natDigits_mem_digit n '\n' hm)).2.2.2

theorem strip_quoted (v : Str) (hne : v ≠ []) (h : ∀ c ∈ v, c ≠ '\'' ∧ c ≠ '"') :
    pyStripChars ['\'', '"'] ('"' :: v ++ ['"']) = v := by
  have hq : ∀ c : Char, (['\'', '"'].contains c) = true ↔ (c = '\'' ∨ c = '"') := by
    intro c
    simp [List.contains_eq_any_beq]
  have hp : ∀ c ∈ v, (['\'', '"'].contains c) = false := by
    intro c hc
    cases hb : (['\'', '"'].contains c)
    · rfl
    · exact absurd ((hq c).1 hb) (by
        obtain ⟨h1, h2⟩ := h c hc
        rintro (rfl | rfl)
        · exact h1 rfl
        · exact h2 rfl)
  unfold pyStripChars dropLeading
  rw [List.cons_append, List.dropWhile_cons]
  rw [if_pos (by simp)]
  rw [dropWhile_head_false (p := fun c => ['\'', '"'].contains c)
    (by
      intro c hc
      apply hp
      match v, hne, hp, hc with
      | x :: xs, _, hp, hc =>
        simp only [List.cons_append, List.head?_cons, Option.some.injEq] at hc
        rw [← hc]
        exact List.mem_cons_self _ _)]
  unfold dropTrailing
  rw [List.reverse_append, List.reverse_cons]
  simp only [List.reverse_nil, List.nil_append, List.singleton_append]
  rw [List.dropWhile_cons, if_pos (by simp)]
  rw [dropWhile_head_false (p := fun c => ['\'', '"'].contains c)
    (by
      intro c hc
      rw [List.head?_reverse] at hc
      exact hp c (List.mem_of_mem_getLast? hc))]
  exact List.reverse_reverse v

theorem pyStrip_space_cons (X : Str)
    (hh : ∀ c, X.head? = some c → isWsChar c = false)
    (hl : ∀ c, X.getLast? = some c → isWsChar c = false) :
    pyStrip (' ' :: X) = X := by
  unfold pyStrip dropLeading
  rw [List.dropWhile_cons, if_pos (by decide)]
  rw [dropWhile_head_false hh]
  exact dropTrailing_last_false hl

theorem takeWhile_all_append {p : Str → Bool} (A : List Str) (y : Str) (B : List Str)
    (hA : ∀ l ∈ A, p l = true) (hy : p y = false) :
    (A ++ y :: B).takeWhile p = A ∧ (A ++ y :: B).dropWhile p = y :: B := by
  induction A with
  | nil =>
    simp only [List.nil_append, List.takeWhile_cons, List.dropWhile_cons, hy]
    simp
  | cons a as ih =>
    have ha : p a = true := hA a (List.mem_cons_self a as)
    obtain ⟨ih1, ih2⟩ := ih (fun l hl => hA l (List.mem_cons_of_mem a hl))
    simp only [List.cons_append, List.takeWhile_cons, List.dropWhile_cons, ha, if_true, ih1, ih2]
    simp

theorem replaceFirstB_id (tree : ContentTree) (k : Str) (v : Bundle)
    (h : lookupB tree k = some v) : replaceFirstB tree k v = tree := by
  induction tree with
  | nil => simp [lookupB] at h
  | cons e rest ih =>
    rw [lookupB_cons] at h
    unfold replaceFirstB
    by_cases he : e.1 = k
    · rw [if_pos he] at h
      rw [if_pos he]
      simp only [Option.some.injEq] at h
      rw [← he, ← h, Prod.mk.eta]
    · rw [if_neg he] at h
      rw [if_neg he, ih h]

theorem upsertB_id (tree : ContentTree) (k : Str) (v : Bundle)
    (h : lookupB tree k = some v) : upsertB tree k v = tree := by
  unfold upsertB
  rw [h]
  simp only [Option.isSome_some, if_true]
  exact replaceFirstB_id tree k v h

theorem lookupB_map_not_mem (fs : List FsPath) (l : List Note) (s : Str)
    (h : s ∉ l.map base_slug) : lookupB (l.map (entryOf fs)) s = none := by
  induction l with
  | nil => rfl
  | cons m rest ih =>
    rw [List.map_cons, lookupB_cons]
    rw [List.map_cons] at h
    rw [if_neg (by
      intro he
      exact h (he ▸ List.mem_cons_self _ _))]
    exact ih (fun hm => h (List.mem_cons_of_mem _ hm))

theorem lookupB_map_mem (fs : List FsPath) (l : List Note) (n : Note)
    (hn : n ∈ l) (hnd : (l.map base_slug).Nodup) :
    lookupB (l.map (entryOf fs)) (base_slug n) = some (first_run_bundle fs n) := by
  induction l with
  | nil => cases hn
  | cons m rest ih =>
    rw [List.map_cons, lookupB_cons]
    rw [List.map_cons] at hnd
    rcases List.mem_cons.1 hn with rfl | hmem
    · rw [if_pos (show (entryOf fs n).1 = base_slug n from rfl)]
      rfl
    · rw [if_neg (by
        intro he
        have hxm : base_slug n ∈ List.map base_slug rest := List.mem_map_of_mem base_slug hmem
        have he' : base_slug m = base_slug n := he
        rw [← he'] at hxm
        exact (List.nodup_cons.1 hnd).1 hxm)]
      exact ih hmem (List.nodup_cons.1 hnd).2

theorem exGet_cons (e : Str × ExistingRec) (rest : Existing) (k : Str) :
    exGet (e :: rest) k = if e.1 = k then some e.2 else exGet rest k := by
  by_cases he : e.1 = k
  · unfold exGet
    rw [List.find?_cons_of_pos _ (by simp [he]), if_pos he]
    simp
  · unfold exGet
    rw [List.find?_cons_of_neg _ (by simp [he]), if_neg he]

theorem exGet_map_not_mem (l : List Note) (k : Str)
    (h : k ∉ l.map Note.note_id) : exGet (l.map (fun m => (m.note_id, recOf m))) k = none := by
  induction l with
  | nil => rfl
  | cons m rest ih =>
    rw [List.map_cons, exGet_cons]
    rw [List.map_cons] at h
    rw [if_neg (by
      intro he
      exact h (he ▸ List.mem_cons_self _ _))]
    exact ih (fun hm => h (List.mem_cons_of_mem _ hm))

theorem exGet_map_mem (l : List Note) (n : Note)
    (hn : n ∈ l) (hnd : (l.map Note.note_id).Nodup) :
    exGet (l.map (fun m => (m.note_id, recOf m))) n.note_id = some (recOf n) := by
  induction l with
  | nil => cases hn
  | cons m rest ih =>
    rw [List.map_cons, exGet_cons]
    rw [List.map_cons] at hnd
    rcases List.mem_cons.1 hn with rfl | hmem
    · rw [if_pos (show (n.note_id, recOf n).1 = n.note_id from rfl)]
    · rw [if_neg (by
        intro he
        have hxm : n.note_id ∈ List.map Note.note_id rest := List.mem_map_of_mem Note.note_id hmem
        have he' : m.note_id = n.note_id := he
        rw [← he'] at hxm
        exact (List.nodup_cons.1 hnd).1 hxm)]
      exact ih hmem (List.nodup_cons.1 hnd).2

theorem exSet_fresh (m : Existing) (k : Str) (r : ExistingRec)
    (h : exGet m k = none) : exSet m k r = m ++ [(k, r)] := by
  unfold exSet
  rw [h]
  simp

theorem pyStripChars_no (cs : List Char) {s : Str}
    (hh : ∀ c, s.head? = some c → (cs.contains c) = false)
    (hl : ∀ c, s.getLast? = some c → (cs.contains c) = false) :
    pyStripChars cs s = s := by
  unfold pyStripChars dropLeading
  rw [dropWhile_head_false hh]
  exact dropTrailing_last_false hl

theorem pyStrip_head_nonws {c : Char} (rest : Str) (hc : isWsChar c = false) :
    ∃ Y, pyStrip (c :: rest) = c :: Y := by
  unfold pyStrip dropLeading
  rw [List.dropWhile_cons, if_neg (by simp [hc])]
  unfold dropTrailing
  rw [List.reverse_cons, List.dropWhile_append]
  by_cases he : (rest.reverse.dropWhile isWsChar).isEmpty
  · rw [if_pos he]
    refine ⟨[], ?_⟩
    rw [List.dropWhile_cons, if_neg (by simp [hc])]
    rfl
  · rw [if_neg he]
    exact ⟨(rest.reverse.dropWhile isWsChar).reverse, by
      rw [List.reverse_append]
      rfl⟩

theorem pyStrip_head_ne {c : Char} (rest : Str) (hc : isWsChar c = false) (hne : c ≠ '-') :
    ¬ pyStrip (c :: rest) = strL "---" := by
  obtain ⟨Y, hY⟩ := pyStrip_head_nonws rest hc
  rw [hY]
  intro h
  have : c = '-' := by
    have h2 : c :: Y = '-' :: strL "--" := h
    exact (List.cons.injEq .. ▸ h2).1
  exact hne this

theorem pyStrip_item (t : Str) (hne : t ≠ []) (hws : ∀ c, t.getLast? = some c → isWsChar c = false) :
    pyStrip (strL "  - " ++ t) = '-' :: ' ' :: t := by
  show pyStrip (' ' :: ' ' :: '-' :: ' ' :: t) = '-' :: ' ' :: t
  unfold pyStrip dropLeading
  rw [List.dropWhile_cons, if_pos (by decide), List.dropWhile_cons, if_pos (by decide),
    List.dropWhile_cons, if_neg (by decide)]
  apply dropTrailing_last_false
  intro c hcx
  rw [show ('-' :: ' ' :: t) = ['-', ' '] ++ t from rfl,
    List.getLast?_append_of_ne_nil _ hne] at hcx
  exact hws c hcx

theorem noteClean_spec {n : Note} (h : noteClean n = true) :
    idClean n.note_id = true ∧ '\n' ∉ n.title ∧ ∀ t ∈ n.tags, tagClean t = true := by
  unfold noteClean at h
  obtain ⟨h12, h3⟩ :
      (idClean n.note_id && !(n.title.contains '\n')) = true ∧ n.tags.all tagClean = true :=
    Bool.and_eq_true _ _ ▸ h
  obtain ⟨h1, h2⟩ : idClean n.note_id = true ∧ (!(n.title.contains '\n')) = true :=
    Bool.and_eq_true _ _ ▸ h12
  refine ⟨h1, ?_, fun t ht => List.all_eq_true.1 h3 t ht⟩
  intro hm
  rw [Bool.not_eq_true'] at h2
  rw [← List.elem_iff] at hm
  rw [show List.elem '\n' n.title = List.contains n.title '\n' from rfl, h2] at hm
  cases hm

theorem wp_tags_mem {n : Note} {t : Str} (h : t ∈ wp_tags n) : t ∈ n.tags :=
  List.mem_of_mem_filter h

theorem wp_fm_lines_no_nl {n : Note} (hcl : noteClean n = true) (pd lm : Str)
    (hpd : '\n' ∉ pd) (hlm : '\n' ∉ lm) :
    ∀ l ∈ wp_fm_lines n pd lm, '\n' ∉ l := by
  obtain ⟨hid, htl, htg⟩ := noteClean_spec hcl
  intro l hl
  unfold wp_fm_lines at hl
  rcases List.mem_append.1 hl with hA | hC
  · rcases List.mem_append.1 hA with hA4 | hT
    · simp only [List.mem_cons, List.not_mem_nil, or_false] at hA4
      rcases hA4 with rfl | rfl | rfl | rfl
      · decide
      · intro hm
        rcases List.mem_append.1 hm with hm2 | hm3
        · rcases List.mem_append.1 hm2 with hm4 | hm5
          · exact absurd hm4 (by decide)
          · exact htl hm5
        · exact absurd hm3 (by decide)
      · intro hm
        rcases List.mem_append.1 hm with hm2 | hm3
        · exact absurd hm2 (by decide)
        · exact hpd hm3
      · intro hm
        rcases List.mem_append.1 hm with hm2 | hm3
        · exact absurd hm2 (by decide)
        · exact hlm hm3
    · by_cases he : wp_tags n = []
      · rw [if_pos he] at hT
        cases hT
      · rw [if_neg he] at hT
        rcases List.mem_cons.1 hT with rfl | hmm
        · decide
        · obtain ⟨t, ht, rfl⟩ := List.mem_map.1 hmm
          intro hm
          rcases List.mem_append.1 hm with hm2 | hm3
          · exact absurd hm2 (by decide)
          · exact (tagChar_facts ((tagClean_spec (htg t (wp_tags_mem ht))).2 '\n' hm3)).2 rfl
  · simp only [List.mem_cons, List.not_mem_nil, or_false] at hC
    rcases hC with rfl | rfl
    · intro hm
      rcases List.mem_append.1 hm with hm2 | hm3
      · rcases List.mem_append.1 hm2 with hm4 | hm5
        · exact absurd hm4 (by decide)
        · exact (idChar_facts ((idClean_spec hid).2 '\n' hm5)).2.2.2.2 rfl
      · exact absurd hm3 (by decide)
    · decide

theorem fm_body_lines (L : List Str) (B : Str) (hL : L ≠ []) (hnl : ∀ l ∈ L, '\n' ∉ l) :
    splitlinesStr (joinWith '\n' L ++ strL "\n\n" ++ B ++ strL "\n")
      = L ++ [] :: splitOnChar '\n' B := by
  have htext : joinWith '\n' L ++ strL "\n\n" ++ B ++ strL "\n"
      = (joinWith '\n' L ++ '\n' :: '\n' :: B) ++ ['\n'] := by
    show joinWith '\n' L ++ ['\n', '\n'] ++ B ++ ['\n'] = _
    simp [List.append_assoc]
  rw [htext]
  have hsplit : splitOnChar '\n' ((joinWith '\n' L ++ '\n' :: '\n' :: B) ++ ['\n'])
      = (L ++ [] :: splitOnChar '\n' B) ++ [[]] := by
    rw [splitOnChar_concat_sep]
    have h1 : joinWith '\n' L ++ '\n' :: '\n' :: B
        = joinWith '\n' L ++ '\n' :: ('\n' :: B) := rfl
    rw [h1, splitOnChar_joinWith_append '\n' L ('\n' :: B) hL hnl]
    rw [splitOnChar_cons, if_pos rfl]
  have hlast : ((joinWith '\n' L ++ '\n' :: '\n' :: B) ++ ['\n']).getLast? = some '\n' :=
    List.getLast?_concat _
  unfold splitlinesStr
  rw [if_neg (by
    intro he
    have hle := congrArg List.length he
    simp at hle)]
  rw [hsplit, hlast]
  simp [List.dropLast_concat]
  rw [show ([] : Str) :: (splitOnChar '\n' B ++ [[]]) = (([] : Str) :: splitOnChar '\n' B) ++ [[]]
    from rfl]
  exact List.dropLast_concat

theorem startsWith_dashes (R : Str) :
    startsWithStr (strL "---\n") (strL "---" ++ '\n' :: R) = true := by
  simp [startsWithStr, strL, List.isPrefixOf]

theorem wp_fm_lines_shape (n : Note) (pd lm : Str) :
    wp_fm_lines n pd lm
      = strL "---"
        :: (([strL "title: \"" ++ n.title ++ strL "\"",
              strL "date: " ++ pd,
              strL "lastmod: " ++ lm]
             ++ (if wp_tags n = [] then []
                 else strL "tags:" :: (wp_tags n).map (fun t => strL "  - " ++ t))
             ++ [strL "note_id: \"" ++ n.note_id ++ strL "\""])
            ++ [strL "---"]) := by
  unfold wp_fm_lines
  simp [List.append_assoc]

theorem interior_no_dashes (n : Note) (hcl : noteClean n = true) (pd lm : Str) :
    ∀ l ∈ ([strL "title: \"" ++ n.title ++ strL "\"",
            strL "date: " ++ pd,
            strL "lastmod: " ++ lm]
           ++ (if wp_tags n = [] then []
               else strL "tags:" :: (wp_tags n).map (fun t => strL "  - " ++ t))
           ++ [strL "note_id: \"" ++ n.note_id ++ strL "\""]),
      decide (pyStrip l = strL "---") = false := by
  obtain ⟨hid, htl, htg⟩ := noteClean_spec hcl
  intro l hl
  rcases List.mem_append.1 hl with hA | hC
  · rcases List.mem_append.1 hA with hA3 | hT
    · simp only [List.mem_cons, List.not_mem_nil, or_false] at hA3
      rcases hA3 with rfl | rfl | rfl
      · exact decide_eq_false
          (show ¬ pyStrip ('t' :: (strL "itle: \"" ++ n.title ++ strL "\"")) = strL "---" from
            pyStrip_head_ne _ (by decide) (by decide))
      · exact decide_eq_false
          (show ¬ pyStrip ('d' :: (strL "ate: " ++ pd)) = strL "---" from
            pyStrip_head_ne _ (by decide) (by decide))
      · exact decide_eq_false
          (show ¬ pyStrip ('l' :: (strL "astmod: " ++ lm)) = strL "---" from
            pyStrip_head_ne _ (by decide) (by decide))
    · by_cases he : wp_tags n = []
      · rw [if_pos he] at hT
        cases hT
      · rw [if_neg he] at hT
        rcases List.mem_cons.1 hT with rfl | hmm
        · decide
        · obtain ⟨t, ht, rfl⟩ := List.mem_map.1 hmm
          obtain ⟨htne, htch⟩ := tagClean_spec (htg t (wp_tags_mem ht))
          rw [pyStrip_item t htne
            (fun c hc => (tagChar_facts (htch c (List.mem_of_mem_getLast? hc))).1)]
          apply decide_eq_false
          intro hcontr
          have : (' ' : Char) = '-' := by
            have h2 : '-' :: ' ' :: t = '-' :: '-' :: ['-'] := hcontr
            exact ((List.cons.injEq .. ▸ (List.cons.injEq .. ▸ h2).2).1)
          exact absurd this (by decide)
  · simp only [List.mem_cons, List.not_mem_nil, or_false] at hC
    subst hC
    exact decide_eq_false
      (show ¬ pyStrip ('n' :: (strL "ote_id: \"" ++ n.note_id ++ strL "\"")) = strL "---" from
        pyStrip_head_ne _ (by decide) (by decide))

theorem parse_front_matter_render (fs : List FsPath) (n : Note) (slug : Str)
    (hcl : noteClean n = true) :
    (parse_front_matter (render_post fs n slug none)).1
      = parseFmLines
          ([strL "title: \"" ++ n.title ++ strL "\"",
            strL "date: " ++ format_dt n.mtime,
            strL "lastmod: " ++ format_dt n.mtime]
           ++ (if wp_tags n = [] then []
               else strL "tags:" :: (wp_tags n).map (fun t => strL "  - " ++ t))
           ++ [strL "note_id: \"" ++ n.note_id ++ strL "\""]) := by
  have hrp : render_post fs n slug none
      = joinWith '\n' (wp_fm_lines n (format_dt n.mtime) (format_dt n.mtime))
        ++ strL "\n\n" ++ pyStrip (rewrite_links fs n.body n.src_dir [slug]).1 ++ strL "\n" := rfl
  have hnl := wp_fm_lines_no_nl hcl (format_dt n.mtime) (format_dt n.mtime)
    (natDigits_no_nl _) (natDigits_no_nl _)
  have hLne : wp_fm_lines n (format_dt n.mtime) (format_dt n.mtime) ≠ [] := by
    rw [wp_fm_lines_shape]
    simp
  have hlines : splitlinesStr (render_post fs n slug none)
      = wp_fm_lines n (format_dt n.mtime) (format_dt n.mtime)
        ++ [] :: splitOnChar '\n' (pyStrip (rewrite_links fs n.body n.src_dir [slug]).1) := by
    rw [hrp]
    exact fm_body_lines _ _ hLne hnl
  have hsw : startsWithStr (strL "---\n") (render_post fs n slug none) = true := by
    rw [hrp, wp_fm_lines_shape, joinWith_cons _ _ _ (by simp)]
    rw [show strL "---" ++ '\n'
          :: joinWith '\n'
            (([strL "title: \"" ++ n.title ++ strL "\"",
               strL "date: " ++ format_dt n.mtime,
               strL "lastmod: " ++ format_dt n.mtime]
              ++ (if wp_tags n = [] then []
                  else strL "tags:" :: (wp_tags n).map (fun t => strL "  - " ++ t))
              ++ [strL "note_id: \"" ++ n.note_id ++ strL "\""])
             ++ [strL "---"])
          ++ strL "\n\n" ++ pyStrip (rewrite_links fs n.body n.src_dir [slug]).1 ++ strL "\n"
        = strL "---" ++ '\n'
          :: (joinWith '\n'
            (([strL "title: \"" ++ n.title ++ strL "\"",
               strL "date: " ++ format_dt n.mtime,
               strL "lastmod: " ++ format_dt n.mtime]
              ++ (if wp_tags n = [] then []
                  else strL "tags:" :: (wp_tags n).map (fun t => strL "  - " ++ t))
              ++ [strL "note_id: \"" ++ n.note_id ++ strL "\""])
             ++ [strL "---"])
          ++ strL "\n\n" ++ pyStrip (rewrite_links fs n.body n.src_dir [slug]).1 ++ strL "\n")
        from by simp [List.append_assoc]]
    exact startsWith_dashes _
  set S := splitOnChar '\n' (pyStrip (rewrite_links fs n.body n.src_dir [slug]).1) with hS
  set MID := ([strL "title: \"" ++ n.title ++ strL "\"",
               strL "date: " ++ format_dt n.mtime,
               strL "lastmod: " ++ format_dt n.mtime]
              ++ (if wp_tags n = [] then []
                  else strL "tags:" :: (wp_tags n).map (fun t => strL "  - " ++ t))
              ++ [strL "note_id: \"" ++ n.note_id ++ strL "\""]) with hMID
  have hshaped : splitlinesStr (render_post fs n slug none)
      = strL "---" :: (MID ++ (strL "---" :: ([] :: S))) := by
    rw [hlines, wp_fm_lines_shape, hMID]
    simp [List.append_assoc]
  have hfind : (MID ++ (strL "---" :: ([] :: S))).findIdx?
      (fun l => decide (pyStrip l = strL "---")) = some MID.length := by
    apply findIdx_skip
    · rw [hMID]
      exact interior_no_dashes n hcl _ _
    · decide
  have htake : (strL "---" :: (MID ++ (strL "---" :: ([] :: S)))).take (MID.length + 1)
      = strL "---" :: MID := by
    rw [List.take_succ_cons]
    exact congrArg _ (List.take_left _ _)
  unfold parse_front_matter
  rw [if_pos hsw, hshaped]
  simp only [List.drop_succ_cons, List.drop_zero]
  rw [hfind]
  simp only [htake, List.drop_succ_cons, List.drop_zero]


theorem parseFmLines_kv (K R : Str) (rest : List Str) (hK : ':' ∉ K)
    (hKt : ¬ pyStrip K = strL "tags") :
    parseFmLines ((K ++ ':' :: R) :: rest)
      = (pyStrip K, FMVal.str (pyStripChars ['\'', '"'] (pyStrip R))) :: parseFmLines rest := by
  rw [parseFmLines_cons]
  have hc : ((K ++ ':' :: R).contains ':') = true := by
    have hm : ':' ∈ K ++ ':' :: R := List.mem_append.2 (Or.inr (List.mem_cons_self _ _))
    rw [← List.elem_iff] at hm
    exact hm
  rw [hc]
  simp only [if_true]
  rw [splitFirst_at ':' K R hK]
  simp only [Option.getD_some]
  rw [if_neg hKt]

theorem parseFmLines_tags_line (items : List Str) (lid : Str)
    (hitems : ∀ l ∈ items, startsWithStr (strL "-") (pyStrip l) = true)
    (hlid : startsWithStr (strL "-") (pyStrip lid) = false) :
    parseFmLines (strL "tags:" :: (items ++ [lid]))
      = (strL "tags", FMVal.tagList (items.filterMap fmTagItem)) :: parseFmLines [lid] := by
  rw [parseFmLines_cons]
  rw [show ((strL "tags:").contains ':') = true from by decide]
  simp only [if_true]
  rw [show splitFirst ':' (strL "tags:") = (strL "tags", some []) from by decide]
  simp only [Option.getD_some]
  rw [if_pos (by decide)]
  obtain ⟨ht, hd⟩ := takeWhile_all_append items lid [] hitems hlid
  rw [ht, hd]
  rw [show fmInlineTags (pyStrip []) = [] from by decide]
  simp

theorem digits_value (m : Nat) :
    pyStripChars ['\'', '"'] (pyStrip (' ' :: format_dt m)) = format_dt m := by
  show pyStripChars ['\'', '"'] (pyStrip (' ' :: natDigits m)) = natDigits m
  have hh : ∀ c, (natDigits m).head? = some c → isWsChar c = false := fun c hc =>
    natDigits_no_ws m c (List.mem_of_mem_head? hc)
  have hl : ∀ c, (natDigits m).getLast? = some c → isWsChar c = false := fun c hc =>
    natDigits_no_ws m c (List.mem_of_mem_getLast? hc)
  rw [pyStrip_space_cons _ hh hl]
  apply pyStripChars_no
  · intro c hc
    obtain ⟨h1, h2, h3, h4⟩ := digit_char_facts (natDigits_mem_digit m c (List.mem_of_mem_head? hc))
    simp [h2, h3]
  · intro c hc
    obtain ⟨h1, h2, h3, h4⟩ :=
      digit_char_facts (natDigits_mem_digit m c (List.mem_of_mem_getLast? hc))
    simp [h2, h3]

theorem quoted_id_value (v : Str) (hid : idClean v = true) :
    pyStripChars ['\'', '"'] (pyStrip (' ' :: ('"' :: v ++ ['"']))) = v := by
  obtain ⟨hne, hch⟩ := idClean_spec hid
  have hstrip : pyStrip (' ' :: ('"' :: v ++ ['"'])) = '"' :: v ++ ['"'] := by
    apply pyStrip_space_cons
    · intro c hc
      simp only [List.cons_append, List.head?_cons, Option.some.injEq] at hc
      rw [← hc]
      decide
    · intro c hc
      rw [show ('"' :: v ++ ['"'] : Str) = ('"' :: v) ++ ['"'] from rfl,
        List.getLast?_concat] at hc
      simp only [Option.some.injEq] at hc
      rw [← hc]
      decide
  rw [hstrip]
  exact strip_quoted v hne (fun c hc =>
    ⟨(idChar_facts (hch c hc)).2.1, (idChar_facts (hch c hc)).2.2.1⟩)

theorem fm_render_roundtrip (fs : List FsPath) (n : Note) (slug : Str)
    (hcl : noteClean n = true) :
    fmGetStr (parse_front_matter (render_post fs n slug none)).1 (strL "note_id")
        = some n.note_id
    ∧ fmGetStr (parse_front_matter (render_post fs n slug none)).1 (strL "date")
        = some (format_dt n.mtime)
    ∧ fmGetStr (parse_front_matter (render_post fs n slug none)).1 (strL "lastmod")
        = some (format_dt n.mtime) := by
  obtain ⟨hid, htl, htg⟩ := noteClean_spec hcl
  rw [parse_front_matter_render fs n slug hcl]
  have e1 : strL "title: \"" ++ n.title ++ strL "\""
      = strL "title" ++ ':' :: (strL " \"" ++ n.title ++ strL "\"") := rfl
  have e2 : strL "date: " ++ format_dt n.mtime
      = strL "date" ++ ':' :: (' ' :: format_dt n.mtime) := rfl
  have e3 : strL "lastmod: " ++ format_dt n.mtime
      = strL "lastmod" ++ ':' :: (' ' :: format_dt n.mtime) := rfl
  have e4 : strL "note_id: \"" ++ n.note_id ++ strL "\""
      = strL "note_id" ++ ':' :: (' ' :: ('"' :: n.note_id ++ ['"'])) := rfl
  by_cases he : wp_tags n = []
  · rw [if_pos he]
    simp only [List.append_nil]
    rw [show ([strL "title: \"" ++ n.title ++ strL "\"",
               strL "date: " ++ format_dt n.mtime,
               strL "lastmod: " ++ format_dt n.mtime]
              ++ [strL "note_id: \"" ++ n.note_id ++ strL "\""] : List Str)
        = [strL "title: \"" ++ n.title ++ strL "\"",
           strL "date: " ++ format_dt n.mtime,
           strL "lastmod: " ++ format_dt n.mtime,
           strL "note_id: \"" ++ n.note_id ++ strL "\""] from rfl]
    rw [e1, e2, e3, e4]
    rw [parseFmLines_kv _ _ _ (by decide) (by decide),
      parseFmLines_kv _ _ _ (by decide) (by decide),
      parseFmLines_kv _ _ _ (by decide) (by decide),
      parseFmLines_kv _ _ _ (by decide) (by decide)]
    rw [show pyStrip (strL "title") = strL "title" from by decide,
      show pyStrip (strL "date") = strL "date" from by decide,
      show pyStrip (strL "lastmod") = strL "lastmod" from by decide,
      show pyStrip (strL "note_id") = strL "note_id" from by decide]
    rw [digits_value, quoted_id_value _ hid, parseFmLines_nil]
    refine ⟨?_, ?_, ?_⟩
    · simp only [fmGetStr, fmGet, List.reverse_cons, List.reverse_nil, List.nil_append,
        List.cons_append, List.append_nil]
      rw [List.find?_cons_of_pos _ (by simp [strL])]
      rfl
    · simp only [fmGetStr, fmGet, List.reverse_cons, List.reverse_nil, List.nil_append,
        List.cons_append, List.append_nil]
      rw [List.find?_cons_of_neg _ (by simp [strL]), List.find?_cons_of_neg _ (by simp [strL]),
        List.find?_cons_of_pos _ (by simp [strL])]
      rfl
    · simp only [fmGetStr, fmGet, List.reverse_cons, List.reverse_nil, List.nil_append,
        List.cons_append, List.append_nil]
      rw [List.find?_cons_of_neg _ (by simp [strL]), List.find?_cons_of_pos _ (by simp [strL])]
      rfl
  · rw [if_neg he]
    have hitems : ∀ l ∈ (wp_tags n).map (fun t => strL "  - " ++ t),
        startsWithStr (strL "-") (pyStrip l) = true := by
      intro l hl
      obtain ⟨t, ht, rfl⟩ := List.mem_map.1 hl
      obtain ⟨htne, htch⟩ := tagClean_spec (htg t (wp_tags_mem ht))
      rw [pyStrip_item t htne
        (fun c hc => (tagChar_facts (htch c (List.mem_of_mem_getLast? hc))).1)]
      simp [startsWithStr, strL, List.isPrefixOf]
    have hlid : startsWithStr (strL "-")
        (pyStrip (strL "note_id: \"" ++ n.note_id ++ strL "\"")) = false := by
      rw [pyStrip_no_ws (s := strL "note_id: \"" ++ n.note_id ++ strL "\"")
        (by
          intro c hc
          rw [show (strL "note_id: \"" ++ n.note_id ++ strL "\"" : Str)
              = 'n' :: (strL "ote_id: \"" ++ n.note_id ++ strL "\"") from rfl] at hc
          simp only [List.head?_cons, Option.some.injEq] at hc
          rw [← hc]
          decide)
        (by
          intro c hc
          rw [show (strL "note_id: \"" ++ n.note_id ++ strL "\"" : Str)
              = (strL "note_id: \"" ++ n.note_id) ++ ['"'] from rfl,
            List.getLast?_concat] at hc
          simp only [Option.some.injEq] at hc
          rw [← hc]
          decide)]
      rw [show (strL "note_id: \"" ++ n.note_id ++ strL "\"" : Str)
          = 'n' :: (strL "ote_id: \"" ++ n.note_id ++ strL "\"") from rfl]
      simp [startsWithStr, List.isPrefixOf]
    rw [show ([strL "title: \"" ++ n.title ++ strL "\"",
               strL "date: " ++ format_dt n.mtime,
               strL "lastmod: " ++ format_dt n.mtime]
              ++ (strL "tags:" :: (wp_tags n).map (fun t => strL "  - " ++ t))
              ++ [strL "note_id: \"" ++ n.note_id ++ strL "\""] : List Str)
        = (strL "title: \"" ++ n.title ++ strL "\"")
          :: (strL "date: " ++ format_dt n.mtime)
          :: (strL "lastmod: " ++ format_dt n.mtime)
          :: (strL "tags:"
            :: ((wp_tags n).map (fun t => strL "  - " ++ t)
              ++ [strL "note_id: \"" ++ n.note_id ++ strL "\""])) from by
        simp [List.append_assoc]]
    rw [e1, e2, e3]
    rw [parseFmLines_kv _ _ _ (by decide) (by decide),
      parseFmLines_kv _ _ _ (by decide) (by decide),
      parseFmLines_kv _ _ _ (by decide) (by decide)]
    rw [parseFmLines_tags_line _ _ hitems hlid]
    rw [e4, parseFmLines_kv _ _ _ (by decide) (by decide), parseFmLines_nil]
    rw [show pyStrip (strL "title") = strL "title" from by decide,
      show pyStrip (strL "date") = strL "date" from by decide,
      show pyStrip (strL "lastmod") = strL "lastmod" from by decide,
      show pyStrip (strL "note_id") = strL "note_id" from by decide]
    rw [digits_value, quoted_id_value _ hid]
    refine ⟨?_, ?_, ?_⟩
    · simp only [fmGetStr, fmGet, List.reverse_cons, List.reverse_nil, List.nil_append,
        List.cons_append, List.append_nil]
      rw [List.find?_cons_of_pos _ (by simp [strL])]
      rfl
    · simp only [fmGetStr, fmGet, List.reverse_cons, List.reverse_nil, List.nil_append,
        List.cons_append, List.append_nil]
      rw [List.find?_cons_of_neg _ (by simp [strL]), List.find?_cons_of_neg _ (by simp [strL]),
        List.find?_cons_of_neg _ (by simp [strL]), List.find?_cons_of_pos _ (by simp [strL])]
      rfl
    · simp only [fmGetStr, fmGet, List.reverse_cons, List.reverse_nil, List.nil_append,
        List.cons_append, List.append_nil]
      rw [List.find?_cons_of_neg _ (by simp [strL]), List.find?_cons_of_neg _ (by simp [strL]),
        List.find?_cons_of_pos _ (by simp [strL])]
      rfl

theorem ensure_unique_self (tree : ContentTree) (slug id : Str) (content : Str)
    (hl : lookupIndexFile tree slug = some content)
    (hfm : fmGetStr (parse_front_matter content).1 (strL "note_id") = some id) :
    ensure_unique_slug tree slug id = slug := by
  unfold ensure_unique_slug
  rw [hl]
  simp only
  rw [hfm]
  simp

theorem format_dt_ne_nil (m : Nat) : format_dt m ≠ [] := natDigits_ne_nil m

theorem render_post_existing_eq (fs : List FsPath) (n : Note) (slug : Str) (rec : ExistingRec)
    (hd : rec.date = some (format_dt n.mtime)) :
    render_post fs n slug (some rec) = render_post fs n slug none := by
  unfold render_post
  have h1 : wp_publish_date (some rec) n.mtime = wp_publish_date none n.mtime := by
    simp only [wp_publish_date]
    rw [hd]
    simp [format_dt_ne_nil n.mtime]
  rw [h1]

theorem base_slug_ne_nil {n : Note} (hid : idClean n.note_id = true) : base_slug n ≠ [] := by
  unfold base_slug slug_choice
  simp only
  by_cases h : (if optTruthy n.slug_override then slugify (n.slug_override.getD [])
      else slugify n.title) = []
  · rw [if_pos h]
    exact (idClean_spec hid).1
  · rw [if_neg h]
    exact h

theorem slug_choice_existing_self (n : Note) (rec : ExistingRec)
    (hs : rec.slug = base_slug n) (hid : idClean n.note_id = true) :
    slug_choice n (some rec) = base_slug n := by
  cases ho : optTruthy n.slug_override
  · have hcond : ¬ (optTruthy n.slug_override = true) := by
      rw [ho]
      exact Bool.false_ne_true
    show (if (if optTruthy n.slug_override then slugify (n.slug_override.getD [])
        else rec.slug) = [] then n.note_id
      else (if optTruthy n.slug_override then slugify (n.slug_override.getD [])
        else rec.slug)) = base_slug n
    rw [if_neg hcond]
    rw [hs, if_neg (base_slug_ne_nil hid)]
  · have hcond : optTruthy n.slug_override = true := ho
    show (if (if optTruthy n.slug_override then slugify (n.slug_override.getD [])
        else rec.slug) = [] then n.note_id
      else (if optTruthy n.slug_override then slugify (n.slug_override.getD [])
        else rec.slug)) = base_slug n
    rw [if_pos hcond]
    unfold base_slug slug_choice
    simp only
    rw [if_pos hcond]

theorem processNote_write (fs : List FsPath) (existing : Existing) (st : LoopState)
    (f : RawFile) (note : Note) (hp : parse_note_markdown f = some note)
    (helig : eligible_note note = true)
    (hskip : freshness_skip (exGet existing note.note_id) note = false) :
    processNote fs existing st f =
      { tree := (write_post fs
          (match exGet existing note.note_id with
           | some r =>
             if optTruthy note.slug_override
                 && decide (ensure_unique_slug st.tree
                     (slug_choice note (exGet existing note.note_id)) note.note_id ≠ r.slug) then
               renameBundle st.tree r.slug
                 (ensure_unique_slug st.tree
                   (slug_choice note (exGet existing note.note_id)) note.note_id)
             else st.tree
           | none => st.tree)
          note
          (ensure_unique_slug st.tree
            (slug_choice note (exGet existing note.note_id)) note.note_id)
          (exGet existing note.note_id)).1
        written := st.written + 1
        skipped := st.skipped
        changes := st.changes ++ [(write_post fs
          (match exGet existing note.note_id with
           | some r =>
             if optTruthy note.slug_override
                 && decide (ensure_unique_slug st.tree
                     (slug_choice note (exGet existing note.note_id)) note.note_id ≠ r.slug) then
               renameBundle st.tree r.slug
                 (ensure_unique_slug st.tree
                   (slug_choice note (exGet existing note.note_id)) note.note_id)
             else st.tree
           | none => st.tree)
          note
          (ensure_unique_slug st.tree
            (slug_choice note (exGet existing note.note_id)) note.note_id)
          (exGet existing note.note_id)).2]
        updated_titles := st.updated_titles
          ++ (if note.has_publish then [note.title] else []) } := by
  obtain ⟨hc, hm⟩ : note.tags.contains (strL "blog") = true
      ∧ (note.has_publish || note.has_published) = true := by
    unfold eligible_note at helig
    exact Bool.and_eq_true _ _ ▸ helig
  have hmem : strL "blog" ∈ note.tags := by simpa using hc
  simp [processNote, hp, hmem, hm, hskip]

theorem processNote_fresh (fs : List FsPath) (st : LoopState) (f : RawFile) (note : Note)
    (hp : parse_note_markdown f = some note) (helig : eligible_note note = true)
    (hnot : lookupB st.tree (base_slug note) = none) :
    processNote fs [] st f =
      { tree := st.tree ++ [entryOf fs note]
        written := st.written + 1
        skipped := st.skipped
        changes := st.changes ++ [(write_post fs st.tree note (base_slug note) none).2]
        updated_titles := st.updated_titles
          ++ (if note.has_publish then [note.title] else []) } := by
  have hex : exGet ([] : Existing) note.note_id = none := rfl
  have hskip : freshness_skip (exGet ([] : Existing) note.note_id) note = false := rfl
  rw [processNote_write fs [] st f note hp helig hskip]
  simp only [hex]
  rw [show slug_choice note none = base_slug note from rfl]
  have hens : ensure_unique_slug st.tree (base_slug note) note.note_id = base_slug note := by
    unfold ensure_unique_slug lookupIndexFile
    rw [hnot]
    rfl
  rw [hens]
  have hwr1 : (write_post fs st.tree note (base_slug note) none).1
      = st.tree ++ [entryOf fs note] := by
    unfold write_post upsertB
    simp only
    rw [hnot]
    simp [entryOf, first_run_bundle]
  rw [hwr1]

theorem run1_fold (fs : List FsPath) :
    ∀ (files : List RawFile) (done : List Note) (st : LoopState),
      st.tree = done.map (entryOf fs) →
      ((done ++ eligNotes files).map base_slug).Nodup →
      (files.foldl (processNote fs []) st).tree = (done ++ eligNotes files).map (entryOf fs) := by
  intro files
  induction files with
  | nil =>
    intro done st hst hnd
    simpa [eligNotes] using hst
  | cons f rest ih =>
    intro done st hst hnd
    rw [List.foldl_cons]
    cases hp : parse_note_markdown f with
    | none =>
      have hpn : processNote fs [] st f = st := by simp [processNote, hp]
      have hl : eligNotes (f :: rest) = eligNotes rest := by
        simp [eligNotes, List.filterMap_cons, hp]
      rw [hl] at hnd ⊢
      rw [hpn]
      exact ih done st hst hnd
    | some note =>
      cases helig : eligible_note note with
      | false =>
        have hpn := processNote_not_eligible fs [] st f note hp helig
        have hl : eligNotes (f :: rest) = eligNotes rest := by
          simp [eligNotes, List.filterMap_cons, hp, helig]
        rw [hl] at hnd ⊢
        rw [hpn]
        exact ih done st hst hnd
      | true =>
        have hl : eligNotes (f :: rest) = note :: eligNotes rest := by
          simp [eligNotes, List.filterMap_cons, hp, helig]
        rw [hl] at hnd ⊢
        have hmm : base_slug note ∉ done.map base_slug := by
          intro hin
          rw [List.map_append] at hnd
          have hdis := (List.nodup_append.1 hnd).2.2
          exact hdis hin (by
            rw [List.map_cons]
            exact List.mem_cons_self _ _)
        have hnot : lookupB st.tree (base_slug note) = none := by
          rw [hst]
          exact lookupB_map_not_mem fs done _ hmm
        rw [processNote_fresh fs st f note hp helig hnot]
        have hnd2 : (((done ++ [note]) ++ eligNotes rest).map base_slug).Nodup := by
          rw [show (done ++ [note]) ++ eligNotes rest = done ++ note :: eligNotes rest from by
            simp]
          exact hnd
        have hres := ih (done ++ [note])
          { tree := st.tree ++ [entryOf fs note]
            written := st.written + 1
            skipped := st.skipped
            changes := st.changes ++ [(write_post fs st.tree note (base_slug note) none).2]
            updated_titles := st.updated_titles
              ++ (if note.has_publish then [note.title] else []) }
          (by
            simp only
            rw [hst, List.map_append]
            rfl)
          hnd2
        rw [show (done ++ [note]) ++ eligNotes rest = done ++ note :: eligNotes rest from by
          simp] at hres
        exact hres

theorem run1_tree (fs : List FsPath) (files : List RawFile)
    (hnd : ((eligNotes files).map base_slug).Nodup) :
    (runPipeline fs files []).tree = (eligNotes files).map (entryOf fs) := by
  unfold runPipeline
  by_cases hfe : files.isEmpty
  · rw [if_pos hfe]
    have hfn : files = [] := by
      cases files
      · rfl
      · simp [List.isEmpty] at hfe
    subst hfn
    simp [eligNotes]
  · rw [if_neg hfe]
    have h := run1_fold fs files [] ⟨[], 0, 0, [], []⟩ rfl (by simpa using hnd)
    rw [show load_existing_posts ([] : ContentTree) = ([] : Existing) from rfl]
    by_cases hw : (files.foldl (processNote fs [])
        ⟨[], 0, 0, [], []⟩ : LoopState).written = 0
    · rw [if_pos hw]
      exact h
    · rw [if_neg hw]
      exact h

theorem loadPostsStep_entry (fs : List FsPath) (A : Existing) (m : Note)
    (hcl : noteClean m = true) (hfresh : exGet A m.note_id = none) :
    loadPostsStep A (entryOf fs m) = A ++ [(m.note_id, recOf m)] := by
  obtain ⟨hnid, hdate, hlast⟩ := fm_render_roundtrip fs m (base_slug m) hcl
  show loadPostsStep A (base_slug m, first_run_bundle fs m) = A ++ [(m.note_id, recOf m)]
  unfold loadPostsStep first_run_bundle
  simp only
  rw [hnid]
  simp only
  rw [if_neg (by
    intro he
    exact (idClean_spec (noteClean_spec hcl).1).1 he)]
  rw [hdate, hlast]
  exact exSet_fresh A m.note_id _ hfresh

theorem load_map (fs : List FsPath) :
    ∀ (notes pre : List Note),
      (∀ m ∈ notes, noteClean m = true) →
      ((pre ++ notes).map Note.note_id).Nodup →
      (notes.map (entryOf fs)).foldl loadPostsStep
          (pre.map (fun x => (x.note_id, recOf x)))
        = (pre ++ notes).map (fun x => (x.note_id, recOf x)) := by
  intro notes
  induction notes with
  | nil =>
    intro pre _ _
    simp
  | cons m rest ih =>
    intro pre hcl hnd
    rw [List.map_cons, List.foldl_cons]
    have hclm := hcl m (List.mem_cons_self _ _)
    have hfresh : exGet (pre.map fun x => (x.note_id, recOf x)) m.note_id = none := by
      apply exGet_map_not_mem
      intro hin
      rw [List.map_append] at hnd
      exact (List.nodup_append.1 hnd).2.2 hin (by
        rw [List.map_cons]
        exact List.mem_cons_self _ _)
    rw [loadPostsStep_entry fs _ m hclm hfresh]
    have hacc : (pre.map fun x => (x.note_id, recOf x)) ++ [(m.note_id, recOf m)]
        = ((pre ++ [m]).map fun x => (x.note_id, recOf x)) := by
      rw [List.map_append]
      rfl
    rw [hacc]
    have hres := ih (pre ++ [m]) (fun x hx => hcl x (List.mem_cons_of_mem _ hx))
      (by
        rw [show (pre ++ [m]) ++ rest = pre ++ m :: rest from by simp]
        exact hnd)
    rw [hres, show (pre ++ [m]) ++ rest = pre ++ m :: rest from by simp]

theorem load_existing_posts_map (fs : List FsPath) (notes : List Note)
    (hcl : ∀ m ∈ notes, noteClean m = true)
    (hnd : (notes.map Note.note_id).Nodup) :
    load_existing_posts (notes.map (entryOf fs))
      = notes.map (fun x => (x.note_id, recOf x)) := by
  unfold load_existing_posts
  have hres := load_map fs notes [] hcl (by simpa using hnd)
  simpa using hres

theorem parse_dt_format (m : Nat) : parse_dt (some (format_dt m)) = some m := by
  show digitsToNat (natDigits m) = some m
  exact digitsToNat_natDigits m

theorem freshness_skip_recOf (note : Note) :
    freshness_skip (some (recOf note)) note = (note.has_published && !note.has_publish) := by
  unfold freshness_skip
  simp only
  rw [show (recOf note).lastmod = some (format_dt note.mtime) from rfl, parse_dt_format]
  simp

theorem processNote_second (fs : List FsPath) (existing : Existing) (st : LoopState)
    (f : RawFile) (note : Note) (hp : parse_note_markdown f = some note)
    (helig : eligible_note note = true) (hcl : noteClean note = true)
    (hex : exGet existing note.note_id = some (recOf note))
    (hlk : lookupB st.tree (base_slug note) = some (first_run_bundle fs note)) :
    processNote fs existing st f
      = if note.has_published && !note.has_publish then { st with skipped := st.skipped + 1 }
        else
          { tree := st.tree
            written := st.written + 1
            skipped := st.skipped
            changes := st.changes ++ [false]
            updated_titles := st.updated_titles
              ++ (if note.has_publish then [note.title] else []) } := by
  have hid : idClean note.note_id = true := (noteClean_spec hcl).1
  have hfs : freshness_skip (exGet existing note.note_id) note
      = (note.has_published && !note.has_publish) := by
    rw [hex]
    exact freshness_skip_recOf note
  cases hb : (note.has_published && !note.has_publish)
  · rw [if_neg Bool.false_ne_true]
    have hskip : freshness_skip (exGet existing note.note_id) note = false := by
      rw [hfs, hb]
    rw [processNote_write fs existing st f note hp helig hskip]
    have hsc : slug_choice note (exGet existing note.note_id) = base_slug note := by
      rw [hex]
      exact slug_choice_existing_self note (recOf note) rfl hid
    have hlif : lookupIndexFile st.tree (base_slug note)
        = some (render_post fs note (base_slug note) none) := by
      unfold lookupIndexFile
      rw [hlk]
      rfl
    have hens : ensure_unique_slug st.tree (slug_choice note (exGet existing note.note_id))
        note.note_id = base_slug note := by
      rw [hsc]
      exact ensure_unique_self st.tree (base_slug note) note.note_id
        (render_post fs note (base_slug note) none) hlif
        (fm_render_roundtrip fs note (base_slug note) hcl).1
    rw [hens]
    simp only [hex]
    rw [show (recOf note).slug = base_slug note from rfl]
    rw [show (decide (base_slug note ≠ base_slug note)) = false from by simp]
    rw [Bool.and_false, if_neg Bool.false_ne_true]
    have hcontent : render_post fs note (base_slug note) (some (recOf note))
        = render_post fs note (base_slug note) none :=
      render_post_existing_eq fs note (base_slug note) (recOf note) rfl
    have hbun : ({ index := some (render_post fs note (base_slug note) none),
                   attach := attach_list fs note (base_slug note) } : Bundle)
        = first_run_bundle fs note := rfl
    have hwr : write_post fs st.tree note (base_slug note) (some (recOf note))
        = (st.tree, false) := by
      simp only [write_post]
      rw [hcontent, hlif]
      rw [show (decide (some (render_post fs note (base_slug note) none)
          ≠ some (render_post fs note (base_slug note) none))) = false from by simp]
      rw [hbun]
      rw [upsertB_id st.tree (base_slug note) (first_run_bundle fs note) hlk]
    rw [hwr]
  · rw [if_pos rfl]
    have hskip : freshness_skip (exGet existing note.note_id) note = true := by
      rw [hfs, hb]
    exact processNote_skip_state fs existing st f note hp helig hskip

theorem run2_fold (fs : List FsPath) (existing : Existing) (T : ContentTree) :
    ∀ (files : List RawFile),
      (∀ f ∈ files, ∀ note, parse_note_markdown f = some note → eligible_note note = true →
        noteClean note = true
        ∧ exGet existing note.note_id = some (recOf note)
        ∧ lookupB T (base_slug note) = some (first_run_bundle fs note)) →
      ∀ (st : LoopState), st.tree = T →
        (files.foldl (processNote fs existing) st).tree = T
        ∧ ∃ k, (files.foldl (processNote fs existing) st).changes
            = st.changes ++ List.replicate k false := by
  intro files
  induction files with
  | nil =>
    intro H st hst
    exact ⟨hst, 0, by simp⟩
  | cons f rest ih =>
    intro H st hst
    rw [List.foldl_cons]
    cases hp : parse_note_markdown f with
    | none =>
      have hpn : processNote fs existing st f = st := by simp [processNote, hp]
      rw [hpn]
      exact ih (fun g hg => H g (List.mem_cons_of_mem _ hg)) st hst
    | some note =>
      cases helig : eligible_note note with
      | false =>
        rw [processNote_not_eligible fs existing st f note hp helig]
        exact ih (fun g hg => H g (List.mem_cons_of_mem _ hg)) st hst
      | true =>
        obtain ⟨hcl, hex, hlk⟩ := H f (List.mem_cons_self _ _) note hp helig
        have hlk' : lookupB st.tree (base_slug note) = some (first_run_bundle fs note) := by
          rw [hst]
          exact hlk
        rw [processNote_second fs existing st f note hp helig hcl hex hlk']
        by_cases hpub : (note.has_published && !note.has_publish) = true
        · rw [if_pos hpub]
          exact ih (fun g hg => H g (List.mem_cons_of_mem _ hg))
            { st with skipped := st.skipped + 1 } hst
        · rw [if_neg hpub]
          obtain ⟨h1, k, h2⟩ := ih (fun g hg => H g (List.mem_cons_of_mem _ hg))
            { tree := st.tree
              written := st.written + 1
              skipped := st.skipped
              changes := st.changes ++ [false]
              updated_titles := st.updated_titles
                ++ (if note.has_publish then [note.title] else []) }
            hst
          refine ⟨h1, k + 1, ?_⟩
          rw [h2]
          simp [List.replicate_succ, List.append_assoc]

theorem mem_eligNotes {files : List RawFile} {f : RawFile} {note : Note}
    (hf : f ∈ files) (hp : parse_note_markdown f = some note)
    (he : eligible_note note = true) : note ∈ eligNotes files := by
  unfold eligNotes
  exact List.mem_filter.2 ⟨List.mem_filterMap.2 ⟨f, hf, hp⟩, he⟩

/-- C1 (amended): idempotence of the reconciler on an unchanged export set,
under the side conditions the code actually needs: the eligible notes have
clean identities, titles and tags (so the front matter round-trips), their
identities are pairwise distinct, their first-run slugs are pairwise
distinct, and the first run starts from an empty content tree. Then the
second run leaves the content tree byte-identical, every write of the
second run has changed = false, and no commit is made. Without the
distinct-identity hypothesis the claim is false (see the counterexample
with two export files sharing the identity suffix). -/
theorem second_run_idempotent (fs : List FsPath) (files : List RawFile)
    (hclean : ∀ n ∈ eligNotes files, noteClean n = true)
    (hids : ((eligNotes files).map Note.note_id).Nodup)
    (hslugs : ((eligNotes files).map base_slug).Nodup) :
    (runPipeline fs files (runPipeline fs files []).tree).tree
        = (runPipeline fs files []).tree
    ∧ (runPipeline fs files (runPipeline fs files []).tree).changes
        = List.replicate
            (runPipeline fs files (runPipeline fs files []).tree).changes.length false
    ∧ (runPipeline fs files (runPipeline fs files []).tree).commit = none := by
  have h1 : (runPipeline fs files []).tree = (eligNotes files).map (entryOf fs) :=
    run1_tree fs files hslugs
  have hload : load_existing_posts ((eligNotes files).map (entryOf fs))
      = (eligNotes files).map (fun x => (x.note_id, recOf x)) :=
    load_existing_posts_map fs _ hclean hids
  have H : ∀ f ∈ files, ∀ note, parse_note_markdown f = some note →
      eligible_note note = true →
      noteClean note = true
      ∧ exGet ((eligNotes files).map (fun x => (x.note_id, recOf x))) note.note_id
          = some (recOf note)
      ∧ lookupB ((eligNotes files).map (entryOf fs)) (base_slug note)
          = some (first_run_bundle fs note) := by
    intro f hf note hp he
    have hmem := mem_eligNotes hf hp he
    exact ⟨hclean note hmem, exGet_map_mem _ note hmem hids,
      lookupB_map_mem fs _ note hmem hslugs⟩
  rw [h1]
  by_cases hfe : files.isEmpty
  · have hfn : files = [] := by
      cases files
      · rfl
      · simp [List.isEmpty] at hfe
    subst hfn
    exact ⟨rfl, rfl, rfl⟩
  · obtain ⟨ht, k, hch⟩ := run2_fold fs ((eligNotes files).map (fun x => (x.note_id, recOf x)))
      ((eligNotes files).map (entryOf fs)) files H
      ⟨(eligNotes files).map (entryOf fs), 0, 0, [], []⟩ rfl
    show (runPipeline fs files ((eligNotes files).map (entryOf fs))).tree
        = (eligNotes files).map (entryOf fs)
      ∧ (runPipeline fs files ((eligNotes files).map (entryOf fs))).changes
          = List.replicate
              (runPipeline fs files ((eligNotes files).map (entryOf fs))).changes.length false
      ∧ (runPipeline fs files ((eligNotes files).map (entryOf fs))).commit = none
    unfold runPipeline
    rw [if_neg hfe, hload]
    by_cases hw : (files.foldl
        (processNote fs ((eligNotes files).map (fun x => (x.note_id, recOf x))))
        (⟨(eligNotes files).map (entryOf fs), 0, 0, [], []⟩ : LoopState)).written = 0
    · rw [if_pos hw]
      refine ⟨ht, ?_, rfl⟩
      simp only
      rw [hch]
      simp
    · rw [if_neg hw]
      refine ⟨ht, ?_, ?_⟩
      · simp only
        rw [hch]
        simp
      · simp only
        rw [if_neg (by
          rw [ht]
          simp)]

theorem second_run_idempotent_witness :
    (runPipeline [] [wFile] (runPipeline [] [wFile] []).tree).tree
        = (runPipeline [] [wFile] []).tree
    ∧ (runPipeline [] [wFile] (runPipeline [] [wFile] []).tree).changes
        = List.replicate
            (runPipeline [] [wFile] (runPipeline [] [wFile] []).tree).changes.length false
    ∧ (runPipeline [] [wFile] (runPipeline [] [wFile] []).tree).commit = none :=
  second_run_idempotent [] [wFile] (by decide) (by decide) (by decide)

/-- C1 counterexample: with two export files whose stems share the identity
suffix "zz", the first run writes two bundles, but the index maps the shared
identity to the bundle written last; on the second run both notes resolve to
that bundle's slug and each write replaces the other note's bytes, so both
second-run writes report changed = true, refuting the unconditional
zero-changed-writes idempotence claim. -/
theorem duplicate_identities_second_run_changes :
    (runPipeline [] [cexA, cexB] (runPipeline [] [cexA, cexB] []).tree).changes
      = [true, true] := by decide
